import Mathlib

/-!
Verification of the JSON-encoding utility (`jsonable_encoder`, `decimal_encoder`,
`ENCODERS_BY_TYPE`) and of `Dependant.oauth_scopes` from `src/fastapi/logger.py`.

The Python value universe is modelled by the inductive type `PyVal`.  It covers the
kinds of runtime values the encoder dispatches on: `None`, `bool`, `int`, `float`,
`str`, `bytes`, `decimal.Decimal` (by its `as_tuple()` representation), enum members
(class name plus underlying `.value`), `pathlib` paths, the Pydantic undefined
sentinel, dicts, the iterable family (list / tuple / set / frozenset / deque /
generator, with the iteration order materialised as a list), Pydantic **v1** model
instances (which the encoder must reject), and generic duck-typed objects `obj`,
characterised by whether `dict(o)` and `vars(o)` succeed and what they yield.
Pydantic v2 `BaseModel` and stdlib dataclass instances are not part of the universe:
their branches delegate to the external `model_dump` / `dataclasses.asdict`
serializers, and no claim depends on them.

Python floats are modelled exactly: a finite float carries the rational it denotes
(`float(Decimal(...))` is modelled as the exact decimal value; no claim depends on
binary rounding), plus NaN and the two infinities as distinguished values.
Python `==` is modelled structurally by `pyBEq`; the cross-type numeric equalities
(`1 == 1.0 == True`) are not modelled, and no claim depends on them.
-/

inductive PFloat where
  | val (q : Rat)
  | nan
  | inf
  | ninf
  deriving DecidableEq, Repr

/-- The `exponent` field of `Decimal.as_tuple()`: an `int` for finite values,
or one of the markers `'n'` (NaN), `'N'` (sNaN), `'F'` (infinity). -/
inductive DecExp where
  | exp (n : Int)
  | nanE
  | snanE
  | infE
  deriving DecidableEq, Repr

/-- Which concrete iterable class a sequence-like value belongs to
(`list`, `tuple`, `set`, `frozenset`, `collections.deque`, generator). -/
inductive SeqKind where
  | list
  | tuple
  | set
  | frozenset
  | deque
  | gen
  deriving DecidableEq, Repr

inductive PyVal where
  | none
  | bool (b : Bool)
  | int (n : Int)
  | float (f : PFloat)
  | str (s : String)
  | bytes (bs : List Nat)
  | decimal (sign : Bool) (digits : List Nat) (exp : DecExp)
  | enum (cls : String) (value : PyVal)
  | path (s : String)
  | undef
  | dict (es : List (PyVal × PyVal))
  | seq (k : SeqKind) (xs : List PyVal)
  | pv1Model (cls : String) (repr : String)
  | obj (cls : String) (asDict : Option (List (PyVal × PyVal)))
        (asVars : Option (List (String × PyVal)))

mutual

def pyBEq : PyVal → PyVal → Bool
  | .none, .none => true
  | .bool a, .bool b => a == b
  | .int a, .int b => a == b
  | .float a, .float b => a == b
  | .str a, .str b => a == b
  | .bytes a, .bytes b => a == b
  | .decimal s1 d1 e1, .decimal s2 d2 e2 => s1 == s2 && d1 == d2 && e1 == e2
  | .enum c1 v1, .enum c2 v2 => c1 == c2 && pyBEq v1 v2
  | .path a, .path b => a == b
  | .undef, .undef => true
  | .dict a, .dict b => pyBEqKV a b
  | .seq k1 x1, .seq k2 x2 => k1 == k2 && pyBEqL x1 x2
  | .pv1Model c1 r1, .pv1Model c2 r2 => c1 == c2 && r1 == r2
  | .obj c1 d1 v1, .obj c2 d2 v2 => c1 == c2 && pyBEqOD d1 d2 && pyBEqOV v1 v2
  | _, _ => false
termination_by structural a => a

def pyBEqKV : List (PyVal × PyVal) → List (PyVal × PyVal) → Bool
  | [], [] => true
  | (k, v) :: r, (k', v') :: r' => pyBEq k k' && pyBEq v v' && pyBEqKV r r'
  | _, _ => false
termination_by structural a => a

def pyBEqL : List PyVal → List PyVal → Bool
  | [], [] => true
  | x :: r, y :: r' => pyBEq x y && pyBEqL r r'
  | _, _ => false
termination_by structural a => a

def pyBEqOD : Option (List (PyVal × PyVal)) → Option (List (PyVal × PyVal)) → Bool
  | Option.none, Option.none => true
  | some a, some b => pyBEqKV a b
  | _, _ => false
termination_by structural a => a

def pyBEqOV : Option (List (String × PyVal)) → Option (List (String × PyVal)) → Bool
  | Option.none, Option.none => true
  | some a, some b => pyBEqVars a b
  | _, _ => false
termination_by structural a => a

def pyBEqVars : List (String × PyVal) → List (String × PyVal) → Bool
  | [], [] => true
  | (k, v) :: r, (k', v') :: r' => k == k' && pyBEq v v' && pyBEqVars r r'
  | _, _ => false
termination_by structural a => a

end

mutual

theorem pyBEq_iff : ∀ a b : PyVal, pyBEq a b = true ↔ a = b
  | .none, .none => iff_of_true rfl rfl
  | .bool a, .bool b => by
      rw [show pyBEq (.bool a) (.bool b) = (a == b) from rfl]; simp
  | .int a, .int b => by
      rw [show pyBEq (.int a) (.int b) = (a == b) from rfl]; simp
  | .float a, .float b => by
      rw [show pyBEq (.float a) (.float b) = (a == b) from rfl]; simp
  | .str a, .str b => by
      rw [show pyBEq (.str a) (.str b) = (a == b) from rfl]; simp
  | .bytes a, .bytes b => by
      rw [show pyBEq (.bytes a) (.bytes b) = (a == b) from rfl]; simp
  | .decimal s1 d1 e1, .decimal s2 d2 e2 => by
      rw [show pyBEq (.decimal s1 d1 e1) (.decimal s2 d2 e2)
            = (s1 == s2 && d1 == d2 && e1 == e2) from rfl]
      simp [and_assoc]
  | .enum c1 v1, .enum c2 v2 => by
      rw [show pyBEq (.enum c1 v1) (.enum c2 v2) = (c1 == c2 && pyBEq v1 v2) from rfl]
      simp [pyBEq_iff v1 v2]
  | .path a, .path b => by
      rw [show pyBEq (.path a) (.path b) = (a == b) from rfl]; simp
  | .undef, .undef => iff_of_true rfl rfl
  | .dict a, .dict b => by
      rw [show pyBEq (.dict a) (.dict b) = pyBEqKV a b from rfl, pyBEqKV_iff a b]
      simp
  | .seq k1 x1, .seq k2 x2 => by
      rw [show pyBEq (.seq k1 x1) (.seq k2 x2) = (k1 == k2 && pyBEqL x1 x2) from rfl]
      simp [pyBEqL_iff x1 x2]
  | .pv1Model c1 r1, .pv1Model c2 r2 => by
      rw [show pyBEq (.pv1Model c1 r1) (.pv1Model c2 r2) = (c1 == c2 && r1 == r2) from rfl]
      simp
  | .obj c1 d1 v1, .obj c2 d2 v2 => by
      rw [show pyBEq (.obj c1 d1 v1) (.obj c2 d2 v2)
            = (c1 == c2 && pyBEqOD d1 d2 && pyBEqOV v1 v2) from rfl]
      simp [pyBEqOD_iff d1 d2, pyBEqOV_iff v1 v2, and_assoc]
  | .none, .bool _ | .none, .int _ | .none, .float _ | .none, .str _ | .none, .bytes _ | .none, .decimal _ _ _ | .none, .enum _ _ | .none, .path _ | .none, .undef | .none, .dict _ | .none, .seq _ _ | .none, .pv1Model _ _ | .none, .obj _ _ _ =>
      iff_of_false (fun h => Bool.noConfusion h) (fun h => PyVal.noConfusion h)
  | .bool _, .none | .bool _, .int _ | .bool _, .float _ | .bool _, .str _ | .bool _, .bytes _ | .bool _, .decimal _ _ _ | .bool _, .enum _ _ | .bool _, .path _ | .bool _, .undef | .bool _, .dict _ | .bool _, .seq _ _ | .bool _, .pv1Model _ _ | .bool _, .obj _ _ _ =>
      iff_of_false (fun h => Bool.noConfusion h) (fun h => PyVal.noConfusion h)
  | .int _, .none | .int _, .bool _ | .int _, .float _ | .int _, .str _ | .int _, .bytes _ | .int _, .decimal _ _ _ | .int _, .enum _ _ | .int _, .path _ | .int _, .undef | .int _, .dict _ | .int _, .seq _ _ | .int _, .pv1Model _ _ | .int _, .obj _ _ _ =>
      iff_of_false (fun h => Bool.noConfusion h) (fun h => PyVal.noConfusion h)
  | .float _, .none | .float _, .bool _ | .float _, .int _ | .float _, .str _ | .float _, .bytes _ | .float _, .decimal _ _ _ | .float _, .enum _ _ | .float _, .path _ | .float _, .undef | .float _, .dict _ | .float _, .seq _ _ | .float _, .pv1Model _ _ | .float _, .obj _ _ _ =>
      iff_of_false (fun h => Bool.noConfusion h) (fun h => PyVal.noConfusion h)
  | .str _, .none | .str _, .bool _ | .str _, .int _ | .str _, .float _ | .str _, .bytes _ | .str _, .decimal _ _ _ | .str _, .enum _ _ | .str _, .path _ | .str _, .undef | .str _, .dict _ | .str _, .seq _ _ | .str _, .pv1Model _ _ | .str _, .obj _ _ _ =>
      iff_of_false (fun h => Bool.noConfusion h) (fun h => PyVal.noConfusion h)
  | .bytes _, .none | .bytes _, .bool _ | .bytes _, .int _ | .bytes _, .float _ | .bytes _, .str _ | .bytes _, .decimal _ _ _ | .bytes _, .enum _ _ | .bytes _, .path _ | .bytes _, .undef | .bytes _, .dict _ | .bytes _, .seq _ _ | .bytes _, .pv1Model _ _ | .bytes _, .obj _ _ _ =>
      iff_of_false (fun h => Bool.noConfusion h) (fun h => PyVal.noConfusion h)
  | .decimal _ _ _, .none | .decimal _ _ _, .bool _ | .decimal _ _ _, .int _ | .decimal _ _ _, .float _ | .decimal _ _ _, .str _ | .decimal _ _ _, .bytes _ | .decimal _ _ _, .enum _ _ | .decimal _ _ _, .path _ | .decimal _ _ _, .undef | .decimal _ _ _, .dict _ | .decimal _ _ _, .seq _ _ | .decimal _ _ _, .pv1Model _ _ | .decimal _ _ _, .obj _ _ _ =>
      iff_of_false (fun h => Bool.noConfusion h) (fun h => PyVal.noConfusion h)
  | .enum _ _, .none | .enum _ _, .bool _ | .enum _ _, .int _ | .enum _ _, .float _ | .enum _ _, .str _ | .enum _ _, .bytes _ | .enum _ _, .decimal _ _ _ | .enum _ _, .path _ | .enum _ _, .undef | .enum _ _, .dict _ | .enum _ _, .seq _ _ | .enum _ _, .pv1Model _ _ | .enum _ _, .obj _ _ _ =>
      iff_of_false (fun h => Bool.noConfusion h) (fun h => PyVal.noConfusion h)
  | .path _, .none | .path _, .bool _ | .path _, .int _ | .path _, .float _ | .path _, .str _ | .path _, .bytes _ | .path _, .decimal _ _ _ | .path _, .enum _ _ | .path _, .undef | .path _, .dict _ | .path _, .seq _ _ | .path _, .pv1Model _ _ | .path _, .obj _ _ _ =>
      iff_of_false (fun h => Bool.noConfusion h) (fun h => PyVal.noConfusion h)
  | .undef, .none | .undef, .bool _ | .undef, .int _ | .undef, .float _ | .undef, .str _ | .undef, .bytes _ | .undef, .decimal _ _ _ | .undef, .enum _ _ | .undef, .path _ | .undef, .dict _ | .undef, .seq _ _ | .undef, .pv1Model _ _ | .undef, .obj _ _ _ =>
      iff_of_false (fun h => Bool.noConfusion h) (fun h => PyVal.noConfusion h)
  | .dict _, .none | .dict _, .bool _ | .dict _, .int _ | .dict _, .float _ | .dict _, .str _ | .dict _, .bytes _ | .dict _, .decimal _ _ _ | .dict _, .enum _ _ | .dict _, .path _ | .dict _, .undef | .dict _, .seq _ _ | .dict _, .pv1Model _ _ | .dict _, .obj _ _ _ =>
      iff_of_false (fun h => Bool.noConfusion h) (fun h => PyVal.noConfusion h)
  | .seq _ _, .none | .seq _ _, .bool _ | .seq _ _, .int _ | .seq _ _, .float _ | .seq _ _, .str _ | .seq _ _, .bytes _ | .seq _ _, .decimal _ _ _ | .seq _ _, .enum _ _ | .seq _ _, .path _ | .seq _ _, .undef | .seq _ _, .dict _ | .seq _ _, .pv1Model _ _ | .seq _ _, .obj _ _ _ =>
      iff_of_false (fun h => Bool.noConfusion h) (fun h => PyVal.noConfusion h)
  | .pv1Model _ _, .none | .pv1Model _ _, .bool _ | .pv1Model _ _, .int _ | .pv1Model _ _, .float _ | .pv1Model _ _, .str _ | .pv1Model _ _, .bytes _ | .pv1Model _ _, .decimal _ _ _ | .pv1Model _ _, .enum _ _ | .pv1Model _ _, .path _ | .pv1Model _ _, .undef | .pv1Model _ _, .dict _ | .pv1Model _ _, .seq _ _ | .pv1Model _ _, .obj _ _ _ =>
      iff_of_false (fun h => Bool.noConfusion h) (fun h => PyVal.noConfusion h)
  | .obj _ _ _, .none | .obj _ _ _, .bool _ | .obj _ _ _, .int _ | .obj _ _ _, .float _ | .obj _ _ _, .str _ | .obj _ _ _, .bytes _ | .obj _ _ _, .decimal _ _ _ | .obj _ _ _, .enum _ _ | .obj _ _ _, .path _ | .obj _ _ _, .undef | .obj _ _ _, .dict _ | .obj _ _ _, .seq _ _ | .obj _ _ _, .pv1Model _ _ =>
      iff_of_false (fun h => Bool.noConfusion h) (fun h => PyVal.noConfusion h)

theorem pyBEqKV_iff : ∀ a b : List (PyVal × PyVal), pyBEqKV a b = true ↔ a = b
  | [], [] => iff_of_true rfl rfl
  | (k, v) :: r, (k', v') :: r' => by
      rw [show pyBEqKV ((k, v) :: r) ((k', v') :: r')
            = (pyBEq k k' && pyBEq v v' && pyBEqKV r r') from rfl]
      simp [pyBEq_iff k k', pyBEq_iff v v', pyBEqKV_iff r r', and_assoc]
  | [], _ :: _ => iff_of_false (fun h => Bool.noConfusion h) (fun h => List.noConfusion h)
  | _ :: _, [] => iff_of_false (fun h => Bool.noConfusion h) (fun h => List.noConfusion h)

theorem pyBEqL_iff : ∀ a b : List PyVal, pyBEqL a b = true ↔ a = b
  | [], [] => iff_of_true rfl rfl
  | x :: r, y :: r' => by
      rw [show pyBEqL (x :: r) (y :: r') = (pyBEq x y && pyBEqL r r') from rfl]
      simp [pyBEq_iff x y, pyBEqL_iff r r']
  | [], _ :: _ => iff_of_false (fun h => Bool.noConfusion h) (fun h => List.noConfusion h)
  | _ :: _, [] => iff_of_false (fun h => Bool.noConfusion h) (fun h => List.noConfusion h)

theorem pyBEqOD_iff : ∀ a b : Option (List (PyVal × PyVal)), pyBEqOD a b = true ↔ a = b
  | Option.none, Option.none => iff_of_true rfl rfl
  | some a, some b => by
      rw [show pyBEqOD (some a) (some b) = pyBEqKV a b from rfl, pyBEqKV_iff a b]
      simp
  | Option.none, some _ =>
      iff_of_false (fun h => Bool.noConfusion h) (fun h => Option.noConfusion h)
  | some _, Option.none =>
      iff_of_false (fun h => Bool.noConfusion h) (fun h => Option.noConfusion h)

theorem pyBEqOV_iff : ∀ a b : Option (List (String × PyVal)), pyBEqOV a b = true ↔ a = b
  | Option.none, Option.none => iff_of_true rfl rfl
  | some a, some b => by
      rw [show pyBEqOV (some a) (some b) = pyBEqVars a b from rfl, pyBEqVars_iff a b]
      simp
  | Option.none, some _ =>
      iff_of_false (fun h => Bool.noConfusion h) (fun h => Option.noConfusion h)
  | some _, Option.none =>
      iff_of_false (fun h => Bool.noConfusion h) (fun h => Option.noConfusion h)

theorem pyBEqVars_iff : ∀ a b : List (String × PyVal), pyBEqVars a b = true ↔ a = b
  | [], [] => iff_of_true rfl rfl
  | (k, v) :: r, (k', v') :: r' => by
      rw [show pyBEqVars ((k, v) :: r) ((k', v') :: r')
            = (k == k' && pyBEq v v' && pyBEqVars r r') from rfl]
      simp [pyBEq_iff v v', pyBEqVars_iff r r', and_assoc]
  | [], _ :: _ => iff_of_false (fun h => Bool.noConfusion h) (fun h => List.noConfusion h)
  | _ :: _, [] => iff_of_false (fun h => Bool.noConfusion h) (fun h => List.noConfusion h)

end

instance : DecidableEq PyVal := fun a b =>
  decidable_of_iff (pyBEq a b = true) (pyBEq_iff a b)

mutual

/-- Structural size used as the fuel bound for the encoder's recursion.  A string
leaf weighs 1, so that the dict built from `vars(obj)` (whose keys are the
attribute-name strings) is smaller than the object it came from. -/
def PyVal.wsize : PyVal → Nat
  | .enum _ v => 1 + v.wsize
  | .dict es => 1 + wsizeKV es
  | .seq _ xs => 1 + wsizeL xs
  | .obj _ d v => 2 + wsizeOD d + wsizeOV v
  | _ => 1

def wsizeKV : List (PyVal × PyVal) → Nat
  | [] => 0
  | (k, v) :: r => 1 + k.wsize + v.wsize + wsizeKV r

def wsizeL : List PyVal → Nat
  | [] => 0
  | x :: r => 1 + x.wsize + wsizeL r

def wsizeOD : Option (List (PyVal × PyVal)) → Nat
  | Option.none => 0
  | some l => 1 + wsizeKV l

def wsizeOV : Option (List (String × PyVal)) → Nat
  | Option.none => 0
  | some l => 1 + wsizeVars l

def wsizeVars : List (String × PyVal) → Nat
  | [] => 0
  | (_, v) :: r => 2 + v.wsize + wsizeVars r

end

/-- Python runtime types, as far as the encoder's dispatching distinguishes them.
`enumCls c` is the concrete `Enum` subclass a member belongs to (`type(member)`),
`enumT` is `enum.Enum` itself; `objCls c` covers generic classes, including the
classes of Pydantic v1 model instances. -/
inductive PyType where
  | noneType
  | boolT
  | intT
  | floatT
  | strT
  | bytesT
  | decimalT
  | enumCls (name : String)
  | enumT
  | pathT
  | undefT
  | dictT
  | listT
  | tupleT
  | setT
  | frozensetT
  | dequeT
  | genT
  | objCls (name : String)
  deriving DecidableEq, Repr

/-- Model of `type(obj)`. -/
def typeOf : PyVal → PyType
  | .none => .noneType
  | .bool _ => .boolT
  | .int _ => .intT
  | .float _ => .floatT
  | .str _ => .strT
  | .bytes _ => .bytesT
  | .decimal _ _ _ => .decimalT
  | .enum c _ => .enumCls c
  | .path _ => .pathT
  | .undef => .undefT
  | .dict _ => .dictT
  | .seq k _ =>
    match k with
    | .list => .listT
    | .tuple => .tupleT
    | .set => .setT
    | .frozenset => .frozensetT
    | .deque => .dequeT
    | .gen => .genT
  | .pv1Model c _ => .objCls c
  | .obj c _ _ => .objCls c

/-- Model of `isinstance(v, t)`: exact type match, plus the subclass relations the
modelled universe exhibits (`bool` subclasses `int`; each `Enum` member's class
subclasses `enum.Enum`).  Arbitrary user-defined subclassing is not modelled. -/
def isinst (v : PyVal) (t : PyType) : Bool :=
  typeOf v == t ||
    (match v, t with
     | .bool _, .intT => true
     | .enum _ _, .enumT => true
     | _, _ => false)

/-- Strict UTF-8 decoding of a byte sequence, as `bytes.decode()` performs it:
rejects continuation errors, overlong encodings, surrogate code points and values
above U+10FFFF. -/
def utf8Decode : List Nat → Option (List Char)
  | [] => some []
  | b :: rest =>
    if b < 0x80 then
      (utf8Decode rest).map (fun cs => Char.ofNat b :: cs)
    else if 0xC2 ≤ b && b ≤ 0xDF then
      match rest with
      | c1 :: rest' =>
        if 0x80 ≤ c1 && c1 ≤ 0xBF then
          (utf8Decode rest').map (fun cs => Char.ofNat ((b - 0xC0) * 64 + (c1 - 0x80)) :: cs)
        else Option.none
      | [] => Option.none
    else if 0xE0 ≤ b && b ≤ 0xEF then
      match rest with
      | c1 :: c2 :: rest' =>
        let lo1 : Nat := if b == 0xE0 then 0xA0 else 0x80
        let hi1 : Nat := if b == 0xED then 0x9F else 0xBF
        if lo1 ≤ c1 && c1 ≤ hi1 && 0x80 ≤ c2 && c2 ≤ 0xBF then
          (utf8Decode rest').map
            (fun cs => Char.ofNat ((b - 0xE0) * 4096 + (c1 - 0x80) * 64 + (c2 - 0x80)) :: cs)
        else Option.none
      | _ => Option.none
    else if 0xF0 ≤ b && b ≤ 0xF4 then
      match rest with
      | c1 :: c2 :: c3 :: rest' =>
        let lo1 : Nat := if b == 0xF0 then 0x90 else 0x80
        let hi1 : Nat := if b == 0xF4 then 0x8F else 0xBF
        if lo1 ≤ c1 && c1 ≤ hi1 && 0x80 ≤ c2 && c2 ≤ 0xBF && 0x80 ≤ c3 && c3 ≤ 0xBF then
          (utf8Decode rest').map
            (fun cs =>
              Char.ofNat ((b - 0xF0) * 262144 + (c1 - 0x80) * 4096 + (c2 - 0x80) * 64
                + (c3 - 0x80)) :: cs)
        else Option.none
      | _ => Option.none
    else Option.none

/-- Model of `bytes.decode()` (UTF-8, strict). -/
def bytesDecode (bs : List Nat) : Option String :=
  (utf8Decode bs).map (fun cs => String.mk cs)

/-- Python exceptions produced by the two coercion attempts of the encoder's
fallback (`dict(obj)` raising `TypeError: not iterable`, `vars(obj)` raising
`TypeError: no __dict__`). -/
inductive PyExc where
  | typeErrorNotIterable (cls : String)
  | typeErrorNoDict (cls : String)
  deriving DecidableEq, Repr

/-- Errors the encoder can raise: `PydanticV1NotSupportedError`, the fallback
`ValueError(errors)` aggregating the coercion failures, `UnicodeDecodeError`
from `bytes.decode()`, and the `ValueError` raised by `float(Decimal("sNaN"))`. -/
inductive EncErr where
  | pv1NotSupported (msg : String)
  | valueError (errs : List PyExc)
  | unicodeDecodeError
  | floatConvError
  deriving DecidableEq, Repr

instance : DecidableEq (Except EncErr PyVal) := fun a b =>
  match a, b with
  | .ok x, .ok y =>
    if h : x = y then isTrue (by rw [h]) else isFalse (fun hh => h (by injection hh))
  | .error e, .error e' =>
    if h : e = e' then isTrue (by rw [h]) else isFalse (fun hh => h (by injection hh))
  | .ok _, .error _ => isFalse (fun hh => Except.noConfusion hh)
  | .error _, .ok _ => isFalse (fun hh => Except.noConfusion hh)

/-- Value of the digit tuple of `Decimal.as_tuple()` read as a natural number. -/
def digitsToNat (ds : List Nat) : Nat := ds.foldl (fun a d => a * 10 + d) 0

/-- The integer `int(d)` of a finite `Decimal` with nonnegative exponent. -/
def decimalInt (sign : Bool) (digits : List Nat) (e : Nat) : Int :=
  (if sign then -1 else 1) * (digitsToNat digits : Int) * (10 : Int) ^ e

/-- The exact value of a finite `Decimal`; `float(d)` is modelled by this rational
(binary rounding is not modelled; no claim depends on it). -/
def decimalRat (sign : Bool) (digits : List Nat) (e : Int) : Rat :=
  (if sign then -1 else 1) * (digitsToNat digits : Rat) * (10 : Rat) ^ e

/-- Model of `decimal_encoder` (src/fastapi/logger.py lines 422-444): if the tuple
exponent is an `int` and `>= 0`, return `int(dec_value)`, otherwise
`float(dec_value)`.  The exponent markers: NaN floats fine, sNaN makes `float()`
raise `ValueError`, infinities give the signed infinite float. -/
def decimal_encoder (sign : Bool) (digits : List Nat) (exp : DecExp) : Except EncErr PyVal :=
  match exp with
  | .exp n =>
    if 0 ≤ n then .ok (.int (decimalInt sign digits n.toNat))
    else .ok (.float (.val (decimalRat sign digits n)))
  | .nanE => .ok (.float .nan)
  | .snanE => .error .floatConvError
  | .infE => .ok (.float (if sign then .ninf else .inf))

/-- Table encoder `bytes: lambda o: o.decode()`. -/
def bytesTableEnc : PyVal → Except EncErr PyVal
  | .bytes bs =>
    match bytesDecode bs with
    | some s => .ok (.str s)
    | Option.none => .error .unicodeDecodeError
  | v => .ok v

/-- Table encoder `Decimal: decimal_encoder`. -/
def decimalTableEnc : PyVal → Except EncErr PyVal
  | .decimal sg ds e => decimal_encoder sg ds e
  | v => .ok v

/-- Table encoder `Enum: lambda o: o.value`. -/
def enumValueTableEnc : PyVal → Except EncErr PyVal
  | .enum _ v => .ok v
  | v => .ok v

/-- Table encoder `list` applied to set / frozenset / deque / GeneratorType. -/
def seqToListTableEnc : PyVal → Except EncErr PyVal
  | .seq _ xs => .ok (.seq .list xs)
  | v => .ok v

/-- Table encoder `str` applied to Path (in the source the same `str` encoder also
serves Color, the IP-address family, NameEmail, the secret types, UUID and the URL
types, none of which are in the modelled universe). -/
def pathStrTableEnc : PyVal → Except EncErr PyVal
  | .path s => .ok (.str s)
  | v => .ok v

/-- Model of `ENCODERS_BY_TYPE` (src/fastapi/logger.py lines 447-474), restricted
to the types of the modelled universe, in source declaration order (the default
`.ok v` branches of the individual encoders are unreachable: the table is only
consulted on an exact `type(obj)` match). -/
def ENCODERS_BY_TYPE : List (PyType × (PyVal → Except EncErr PyVal)) :=
  [(.bytesT, bytesTableEnc),
   (.decimalT, decimalTableEnc),
   (.enumT, enumValueTableEnc),
   (.frozensetT, seqToListTableEnc),
   (.dequeT, seqToListTableEnc),
   (.genT, seqToListTableEnc),
   (.pathT, pathStrTableEnc),
   (.setT, seqToListTableEnc)]

/-- Model of `encoders_by_class_tuples = generate_encoders_by_class_tuples(ENCODERS_BY_TYPE)`
(line 488): the table grouped by encoder function, each group carrying the tuple of
types that use it, in first-appearance order, restricted to the modelled universe
(in the source the `str` group's tuple starts at `Color`, so it precedes the
`Decimal` and `Enum` groups). -/
def encoders_by_class_tuples : List ((PyVal → Except EncErr PyVal) × List PyType) :=
  [(bytesTableEnc, [.bytesT]),
   (pathStrTableEnc, [.pathT]),
   (decimalTableEnc, [.decimalT]),
   (enumValueTableEnc, [.enumT]),
   (seqToListTableEnc, [.frozensetT, .dequeT, .genT, .setT])]

/-- The keyword arguments of `jsonable_encoder` (src/fastapi/logger.py lines
491-579) with their default values.  `include`/`exclude` are modelled by their key
sets (the source normalises any non-set, non-dict iterable with `set(...)` and uses
a dict-valued `include`/`exclude` only through `set(include)` / `set(exclude)`,
i.e. through its key set, in the branches modelled here).  `custom_encoder` is an
insertion-ordered list of (type, function) entries. -/
structure EncArgs where
  include' : Option (List PyVal) := Option.none
  exclude : Option (List PyVal) := Option.none
  by_alias : Bool := true
  exclude_unset : Bool := false
  exclude_defaults : Bool := false
  exclude_none : Bool := false
  custom_encoder : List (PyType × (PyVal → PyVal)) := []
  sqlalchemy_safe : Bool := true

/-- The default argument set of `jsonable_encoder`. -/
def defaultArgs : EncArgs := {}

/-- Lines 593-600: `custom_encoder = custom_encoder or {}` followed by the
exact-type lookup and, failing that, the insertion-order `isinstance` scan.
Returns the custom encoder's result, or `none` when no entry applies. -/
def applyCustom (ce : List (PyType × (PyVal → PyVal))) (obj : PyVal) : Option PyVal :=
  if ce.isEmpty then Option.none
  else
    match ce.find? (fun p => p.1 == typeOf obj) with
    | some p => some (p.2 obj)
    | Option.none => (ce.find? (fun p => isinst obj p.1)).map (fun p => p.2 obj)

/-- Tests whether a value is the `None` singleton (`value is None`). -/
def isNone : PyVal → Bool
  | .none => true
  | _ => false

/-- Character-list version of `str.startswith` (the built-in `String.startsWith`
is byte-based and does not reduce in the kernel). -/
def charsStartWith : List Char → List Char → Bool
  | [], _ => true
  | _ :: _, [] => false
  | p :: ps, c :: cs => p == c && charsStartWith ps cs

/-- Model of `s.startswith(pat)`. -/
def strStartsWith (s pat : String) : Bool := charsStartWith pat.data s.data

/-- A dict key that the SQLAlchemy guard drops: a `str` starting with `"_sa"`. -/
def sqlalchemyKey : PyVal → Bool
  | .str s => strStartsWith s "_sa"
  | _ => false

/-- Membership of a key in a key set, with Python `==` (lines 645-649 build
`allowed_keys` with set operations; membership is by equality). -/
def pyMem (x : PyVal) (l : List PyVal) : Bool := l.any (fun y => pyBEq x y)

/-- `key in allowed_keys` for `allowed_keys = set(obj.keys()) & set(include) - set(exclude)`
(lines 645-649): the key is drawn from the dict itself, so only the `include`
intersection and `exclude` subtraction remain. -/
def allowedKey (a : EncArgs) (k : PyVal) : Bool :=
  (match a.include' with
   | some l => pyMem k l
   | Option.none => true) &&
  (match a.exclude with
   | some l => !pyMem k l
   | Option.none => true)

/-- The guard of lines 651-659: keep a dict entry iff
`(not sqlalchemy_safe or not isinstance(key, str) or not key.startswith("_sa"))
and (value is not None or not exclude_none) and key in allowed_keys`. -/
def keepEntry (a : EncArgs) (k v : PyVal) : Bool :=
  (!a.sqlalchemy_safe || !sqlalchemyKey k) &&
  (!isNone v || !a.exclude_none) &&
  allowedKey a k

/-- The arguments of the recursive calls on a dict's keys and values (lines
660-675): `by_alias`, `exclude_unset`, `exclude_none`, `custom_encoder` and
`sqlalchemy_safe` are forwarded; `include`, `exclude` and `exclude_defaults`
are not (they revert to their defaults). -/
def dictChildArgs (a : EncArgs) : EncArgs :=
  { include' := Option.none
    exclude := Option.none
    by_alias := a.by_alias
    exclude_unset := a.exclude_unset
    exclude_defaults := false
    exclude_none := a.exclude_none
    custom_encoder := a.custom_encoder
    sqlalchemy_safe := a.sqlalchemy_safe }

/-- `encoded_dict[encoded_key] = encoded_value` (line 676): Python dict assignment
keeps the original key and position when an equal key is present, otherwise
appends the new entry. -/
def dictInsert (es : List (PyVal × PyVal)) (k v : PyVal) : List (PyVal × PyVal) :=
  if es.any (fun p => pyBEq p.1 k) then
    es.map (fun p => if pyBEq p.1 k then (p.1, v) else p)
  else es ++ [(k, v)]

/-- `dict(vars(obj))`: the attribute bag as a dict with string keys. -/
def mapVars (vs : List (String × PyVal)) : List (PyVal × PyVal) :=
  vs.map (fun p => (.str p.1, p.2))

/-- The loop of lines 650-676, parameterised by the element encoder `enc` (which
the caller instantiates with the fuel-indexed encoder at the child argument set):
filter each entry with `keep`, encode key then value, insert into the accumulated
output dict.  The outer `Option` is fuel exhaustion of `enc`, the `Except` a
propagated Python exception. -/
def goDict (keep : PyVal → PyVal → Bool) (enc : PyVal → Option (Except EncErr PyVal))
    (acc : List (PyVal × PyVal)) :
    List (PyVal × PyVal) → Option (Except EncErr (List (PyVal × PyVal)))
  | [] => some (.ok acc)
  | (k, v) :: rest =>
    if keep k v then
      match enc k with
      | Option.none => Option.none
      | some (.error e) => some (.error e)
      | some (.ok ek) =>
        match enc v with
        | Option.none => Option.none
        | some (.error e) => some (.error e)
        | some (.ok ev) => goDict keep enc (dictInsert acc ek ev) rest
    else goDict keep enc acc rest

/-- The loop of lines 679-693: encode every element in input order, appending to
the output list; a raised exception aborts the loop. -/
def goList (enc : PyVal → Option (Except EncErr PyVal)) :
    List PyVal → Option (Except EncErr (List PyVal))
  | [] => some (.ok [])
  | x :: xs =>
    match enc x with
    | Option.none => Option.none
    | some (.error e) => some (.error e)
    | some (.ok y) =>
      match goList enc xs with
      | Option.none => Option.none
      | some (.error e) => some (.error e)
      | some (.ok ys) => some (.ok (y :: ys))

/-- The error message of `PydanticV1NotSupportedError` (lines 702-705). -/
def pv1Msg (r : String) : String :=
  "pydantic.v1 models are no longer supported by FastAPI. Please update the model "
    ++ r ++ "."

/-- Fuel-indexed model of `jsonable_encoder` (src/fastapi/logger.py lines
491-726).  `Option.none` is fuel exhaustion (never reached when the fuel is at
least `obj.wsize`, see `encodeF_isSome`); `some (.error e)` models a raised
exception; `some (.ok r)` a returned value.

Branch order follows the source: custom encoders (593-600); the include/exclude
set normalisation (601-604) is the identity on the key-set model; the `BaseModel`
(605-620) and dataclass (621-634) branches delegate to external serializers and
their instances are outside the modelled universe; `Enum` (635), `PurePath` (637),
the primitive passthrough (639, where `bool` passes the `isinstance(obj, int)`
test), `PydanticUndefinedType` (641), `dict` (643-677), the iterable family
(678-694), the exact-type table and the grouped `isinstance` scan (696-700), the
Pydantic v1 rejection (701-705), and the `dict(obj)` / `vars(obj)` fallback that
re-encodes the resulting mapping with the full option set (706-726). -/
def encodeF : Nat → EncArgs → PyVal → Option (Except EncErr PyVal)
  | 0 => fun _ _ => Option.none
  | Nat.succ n => fun a obj =>
    match applyCustom a.custom_encoder obj with
    | some r => some (.ok r)
    | Option.none =>
      match obj with
      | .enum _ v => some (.ok v)
      | .path s => some (.ok (.str s))
      | .none => some (.ok .none)
      | .bool b => some (.ok (.bool b))
      | .int m => some (.ok (.int m))
      | .float f => some (.ok (.float f))
      | .str s => some (.ok (.str s))
      | .undef => some (.ok .none)
      | .dict es =>
        match goDict (keepEntry a) (encodeF n (dictChildArgs a)) [] es with
        | Option.none => Option.none
        | some (.error e) => some (.error e)
        | some (.ok out) => some (.ok (.dict out))
      | .seq _ xs =>
        match goList (encodeF n a) xs with
        | Option.none => Option.none
        | some (.error e) => some (.error e)
        | some (.ok ys) => some (.ok (.seq .list ys))
      | v =>
        match ENCODERS_BY_TYPE.find? (fun p => p.1 == typeOf v) with
        | some p => some (p.2 v)
        | Option.none =>
          match encoders_by_class_tuples.find? (fun p => p.2.any (fun t => isinst v t)) with
          | some p => some (p.1 v)
          | Option.none =>
            match v with
            | .pv1Model _ r => some (.error (.pv1NotSupported (pv1Msg r)))
            | .obj c dOpt vOpt =>
              match dOpt with
              | some prs => encodeF n a (.dict prs)
              | Option.none =>
                match vOpt with
                | some vs => encodeF n a (.dict (mapVars vs))
                | Option.none =>
                  some (.error (.valueError [.typeErrorNotIterable c, .typeErrorNoDict c]))
            | _ => some (.error (.valueError []))

theorem wsize_pos : ∀ v : PyVal, 1 ≤ v.wsize := by
  intro v
  cases v <;> (simp only [PyVal.wsize]; omega)

theorem wsizeKV_bound : ∀ (l : List (PyVal × PyVal)) (p : PyVal × PyVal), p ∈ l →
    p.1.wsize ≤ wsizeKV l ∧ p.2.wsize ≤ wsizeKV l := by
  intro l
  induction l with
  | nil => intro p hp; cases hp
  | cons q r ih =>
    intro p hp
    obtain ⟨k, v⟩ := q
    rw [show wsizeKV ((k, v) :: r) = 1 + k.wsize + v.wsize + wsizeKV r from rfl]
    rcases List.mem_cons.mp hp with rfl | hp
    · simp; omega
    · have := ih p hp; omega

theorem wsizeL_bound : ∀ (l : List PyVal) (x : PyVal), x ∈ l → x.wsize ≤ wsizeL l := by
  intro l
  induction l with
  | nil => intro x hx; cases hx
  | cons y r ih =>
    intro x hx
    rw [show wsizeL (y :: r) = 1 + y.wsize + wsizeL r from rfl]
    rcases List.mem_cons.mp hx with rfl | hx
    · omega
    · have := ih x hx; omega

theorem wsizeKV_mapVars : ∀ vs : List (String × PyVal), wsizeKV (mapVars vs) = wsizeVars vs := by
  intro vs
  induction vs with
  | nil => rfl
  | cons q r ih =>
    obtain ⟨k, v⟩ := q
    rw [show mapVars ((k, v) :: r) = (.str k, v) :: mapVars r from rfl]
    rw [show wsizeKV ((PyVal.str k, v) :: mapVars r)
          = 1 + (PyVal.str k).wsize + v.wsize + wsizeKV (mapVars r) from rfl]
    rw [show wsizeVars ((k, v) :: r) = 2 + v.wsize + wsizeVars r from rfl]
    rw [show (PyVal.str k).wsize = 1 from rfl, ih]

theorem goDict_mono {keep : PyVal → PyVal → Bool}
    {enc enc' : PyVal → Option (Except EncErr PyVal)}
    (henc : ∀ x r, enc x = some r → enc' x = some r) :
    ∀ (l acc : List (PyVal × PyVal)) (r : Except EncErr (List (PyVal × PyVal))),
      goDict keep enc acc l = some r → goDict keep enc' acc l = some r := by
  intro l
  induction l with
  | nil => intro acc r h; exact h
  | cons q rest ih =>
    intro acc r h
    obtain ⟨k, v⟩ := q
    rw [goDict] at h ⊢
    by_cases hk : keep k v
    · rw [if_pos hk] at h ⊢
      cases hek : enc k with
      | none => rw [hek] at h; cases h
      | some rk =>
        rw [hek] at h
        rw [henc k rk hek]
        cases rk with
        | error e => exact h
        | ok ek =>
          cases hev : enc v with
          | none => rw [hev] at h; cases h
          | some rv =>
            rw [hev] at h
            rw [henc v rv hev]
            cases rv with
            | error e => exact h
            | ok ev => exact ih _ _ h
    · rw [if_neg hk] at h ⊢
      exact ih _ _ h

theorem goList_mono {enc enc' : PyVal → Option (Except EncErr PyVal)}
    (henc : ∀ x r, enc x = some r → enc' x = some r) :
    ∀ (l : List PyVal) (r : Except EncErr (List PyVal)),
      goList enc l = some r → goList enc' l = some r := by
  intro l
  induction l with
  | nil => intro r h; exact h
  | cons x rest ih =>
    intro r h
    rw [goList] at h ⊢
    cases hx : enc x with
    | none => rw [hx] at h; cases h
    | some rx =>
      rw [hx] at h
      rw [henc x rx hx]
      cases rx with
      | error e => exact h
      | ok y =>
        cases hrest : goList enc rest with
        | none => rw [hrest] at h; cases h
        | some rr =>
          rw [hrest] at h
          rw [ih rr hrest]
          exact h

theorem encodeF_zero (a : EncArgs) (obj : PyVal) : encodeF 0 a obj = Option.none := rfl

theorem encodeF_custom (n : Nat) (a : EncArgs) (obj : PyVal) (r : PyVal)
    (h : applyCustom a.custom_encoder obj = some r) :
    encodeF (n + 1) a obj = some (.ok r) := by
  simp only [encodeF]
  rw [h]

theorem encodeF_enum (n : Nat) (a : EncArgs) (c : String) (v : PyVal)
    (h : applyCustom a.custom_encoder (.enum c v) = Option.none) :
    encodeF (n + 1) a (.enum c v) = some (.ok v) := by
  simp only [encodeF]
  rw [h]

theorem encodeF_path (n : Nat) (a : EncArgs) (s : String)
    (h : applyCustom a.custom_encoder (.path s) = Option.none) :
    encodeF (n + 1) a (.path s) = some (.ok (.str s)) := by
  simp only [encodeF]
  rw [h]

theorem encodeF_none (n : Nat) (a : EncArgs)
    (h : applyCustom a.custom_encoder .none = Option.none) :
    encodeF (n + 1) a .none = some (.ok .none) := by
  simp only [encodeF]
  rw [h]

theorem encodeF_bool (n : Nat) (a : EncArgs) (b : Bool)
    (h : applyCustom a.custom_encoder (.bool b) = Option.none) :
    encodeF (n + 1) a (.bool b) = some (.ok (.bool b)) := by
  simp only [encodeF]
  rw [h]

theorem encodeF_int (n : Nat) (a : EncArgs) (i : Int)
    (h : applyCustom a.custom_encoder (.int i) = Option.none) :
    encodeF (n + 1) a (.int i) = some (.ok (.int i)) := by
  simp only [encodeF]
  rw [h]

theorem encodeF_float (n : Nat) (a : EncArgs) (f : PFloat)
    (h : applyCustom a.custom_encoder (.float f) = Option.none) :
    encodeF (n + 1) a (.float f) = some (.ok (.float f)) := by
  simp only [encodeF]
  rw [h]

theorem encodeF_str (n : Nat) (a : EncArgs) (s : String)
    (h : applyCustom a.custom_encoder (.str s) = Option.none) :
    encodeF (n + 1) a (.str s) = some (.ok (.str s)) := by
  simp only [encodeF]
  rw [h]

theorem encodeF_undef (n : Nat) (a : EncArgs)
    (h : applyCustom a.custom_encoder .undef = Option.none) :
    encodeF (n + 1) a .undef = some (.ok .none) := by
  simp only [encodeF]
  rw [h]

theorem encodeF_dict (n : Nat) (a : EncArgs) (es : List (PyVal × PyVal))
    (h : applyCustom a.custom_encoder (.dict es) = Option.none) :
    encodeF (n + 1) a (.dict es)
      = match goDict (keepEntry a) (encodeF n (dictChildArgs a)) [] es with
        | Option.none => Option.none
        | some (.error e) => some (.error e)
        | some (.ok out) => some (.ok (.dict out)) := by
  simp only [encodeF]
  rw [h]

theorem encodeF_seq (n : Nat) (a : EncArgs) (k : SeqKind) (xs : List PyVal)
    (h : applyCustom a.custom_encoder (.seq k xs) = Option.none) :
    encodeF (n + 1) a (.seq k xs)
      = match goList (encodeF n a) xs with
        | Option.none => Option.none
        | some (.error e) => some (.error e)
        | some (.ok ys) => some (.ok (.seq .list ys)) := by
  simp only [encodeF]
  rw [h]

theorem encodeF_bytes (n : Nat) (a : EncArgs) (bs : List Nat)
    (h : applyCustom a.custom_encoder (.bytes bs) = Option.none) :
    encodeF (n + 1) a (.bytes bs) = some (bytesTableEnc (.bytes bs)) := by
  simp only [encodeF]
  rw [h]
  rfl

theorem encodeF_decimal (n : Nat) (a : EncArgs) (sg : Bool) (ds : List Nat) (e : DecExp)
    (h : applyCustom a.custom_encoder (.decimal sg ds e) = Option.none) :
    encodeF (n + 1) a (.decimal sg ds e) = some (decimal_encoder sg ds e) := by
  simp only [encodeF]
  rw [h]
  rfl

theorem encodeF_pv1 (n : Nat) (a : EncArgs) (c rp : String)
    (h : applyCustom a.custom_encoder (.pv1Model c rp) = Option.none) :
    encodeF (n + 1) a (.pv1Model c rp)
      = some (.error (.pv1NotSupported (pv1Msg rp))) := by
  simp only [encodeF]
  rw [h]
  rfl

theorem encodeF_objDict (n : Nat) (a : EncArgs) (c : String)
    (prs : List (PyVal × PyVal)) (vOpt : Option (List (String × PyVal)))
    (h : applyCustom a.custom_encoder (.obj c (some prs) vOpt) = Option.none) :
    encodeF (n + 1) a (.obj c (some prs) vOpt) = encodeF n a (.dict prs) := by
  simp only [encodeF]
  rw [h]
  rfl

theorem encodeF_objVars (n : Nat) (a : EncArgs) (c : String) (vs : List (String × PyVal))
    (h : applyCustom a.custom_encoder (.obj c Option.none (some vs)) = Option.none) :
    encodeF (n + 1) a (.obj c Option.none (some vs))
      = encodeF n a (.dict (mapVars vs)) := by
  simp only [encodeF]
  rw [h]
  rfl

theorem encodeF_objFail (n : Nat) (a : EncArgs) (c : String)
    (h : applyCustom a.custom_encoder (.obj c Option.none Option.none) = Option.none) :
    encodeF (n + 1) a (.obj c Option.none Option.none)
      = some (.error (.valueError [.typeErrorNotIterable c, .typeErrorNoDict c])) := by
  simp only [encodeF]
  rw [h]
  rfl

theorem encodeF_mono : ∀ (n : Nat) (a : EncArgs) (obj : PyVal) (r : Except EncErr PyVal),
    encodeF n a obj = some r → ∀ m, n ≤ m → encodeF m a obj = some r := by
  intro n
  induction n with
  | zero =>
    intro a obj r h m hm
    rw [encodeF_zero] at h
    cases h
  | succ n ih =>
    intro a obj r h m hm
    obtain ⟨m', rfl⟩ : ∃ m', m = m' + 1 := ⟨m - 1, by omega⟩
    have hm' : n ≤ m' := by omega
    cases happ : applyCustom a.custom_encoder obj with
    | some rc =>
      rw [encodeF_custom n a obj rc happ] at h
      rw [encodeF_custom m' a obj rc happ]
      exact h
    | none =>
      cases obj with
      | enum c v =>
        rw [encodeF_enum n a c v happ] at h
        rw [encodeF_enum m' a c v happ]
        exact h
      | path s =>
        rw [encodeF_path n a s happ] at h
        rw [encodeF_path m' a s happ]
        exact h
      | none =>
        rw [encodeF_none n a happ] at h
        rw [encodeF_none m' a happ]
        exact h
      | bool b =>
        rw [encodeF_bool n a b happ] at h
        rw [encodeF_bool m' a b happ]
        exact h
      | int i =>
        rw [encodeF_int n a i happ] at h
        rw [encodeF_int m' a i happ]
        exact h
      | float f =>
        rw [encodeF_float n a f happ] at h
        rw [encodeF_float m' a f happ]
        exact h
      | str s =>
        rw [encodeF_str n a s happ] at h
        rw [encodeF_str m' a s happ]
        exact h
      | undef =>
        rw [encodeF_undef n a happ] at h
        rw [encodeF_undef m' a happ]
        exact h
      | dict es =>
        rw [encodeF_dict n a es happ] at h
        rw [encodeF_dict m' a es happ]
        cases hgd : goDict (keepEntry a) (encodeF n (dictChildArgs a)) [] es with
        | none => rw [hgd] at h; cases h
        | some rd =>
          rw [hgd] at h
          rw [goDict_mono (fun x rx hx => ih (dictChildArgs a) x rx hx m' hm') es [] rd hgd]
          exact h
      | seq k xs =>
        rw [encodeF_seq n a k xs happ] at h
        rw [encodeF_seq m' a k xs happ]
        cases hgl : goList (encodeF n a) xs with
        | none => rw [hgl] at h; cases h
        | some rl =>
          rw [hgl] at h
          rw [goList_mono (fun x rx hx => ih a x rx hx m' hm') xs rl hgl]
          exact h
      | bytes bs =>
        rw [encodeF_bytes n a bs happ] at h
        rw [encodeF_bytes m' a bs happ]
        exact h
      | decimal sg ds e =>
        rw [encodeF_decimal n a sg ds e happ] at h
        rw [encodeF_decimal m' a sg ds e happ]
        exact h
      | pv1Model c rp =>
        rw [encodeF_pv1 n a c rp happ] at h
        rw [encodeF_pv1 m' a c rp happ]
        exact h
      | obj c dOpt vOpt =>
        cases dOpt with
        | some prs =>
          rw [encodeF_objDict n a c prs vOpt happ] at h
          rw [encodeF_objDict m' a c prs vOpt happ]
          exact ih a (.dict prs) r h m' hm'
        | none =>
          cases vOpt with
          | some vs =>
            rw [encodeF_objVars n a c vs happ] at h
            rw [encodeF_objVars m' a c vs happ]
            exact ih a (.dict (mapVars vs)) r h m' hm'
          | none =>
            rw [encodeF_objFail n a c happ] at h
            rw [encodeF_objFail m' a c happ]
            exact h

theorem goDict_isSome {keep : PyVal → PyVal → Bool}
    {enc : PyVal → Option (Except EncErr PyVal)} :
    ∀ (l acc : List (PyVal × PyVal)),
      (∀ p ∈ l, (enc p.1).isSome ∧ (enc p.2).isSome) →
      (goDict keep enc acc l).isSome := by
  intro l
  induction l with
  | nil => intro acc _; rfl
  | cons q rest ih =>
    intro acc hl
    obtain ⟨k, v⟩ := q
    have hk := (hl (k, v) (List.mem_cons_self _ _)).1
    have hv := (hl (k, v) (List.mem_cons_self _ _)).2
    have hrest : ∀ p ∈ rest, (enc p.1).isSome ∧ (enc p.2).isSome :=
      fun p hp => hl p (List.mem_cons_of_mem _ hp)
    rw [goDict]
    by_cases hkeep : keep k v
    · rw [if_pos hkeep]
      cases hek : enc k with
      | none => rw [hek] at hk; cases hk
      | some rk =>
        cases rk with
        | error e => rfl
        | ok ek =>
          cases hev : enc v with
          | none => rw [hev] at hv; cases hv
          | some rv =>
            cases rv with
            | error e => rfl
            | ok ev => exact ih _ hrest
    · rw [if_neg hkeep]
      exact ih _ hrest

theorem goList_isSome {enc : PyVal → Option (Except EncErr PyVal)} :
    ∀ l : List PyVal, (∀ x ∈ l, (enc x).isSome) → (goList enc l).isSome := by
  intro l
  induction l with
  | nil => intro _; rfl
  | cons x rest ih =>
    intro hl
    have hx := hl x (List.mem_cons_self _ _)
    have hrest : ∀ y ∈ rest, (enc y).isSome := fun y hy => hl y (List.mem_cons_of_mem _ hy)
    rw [goList]
    cases hex : enc x with
    | none => rw [hex] at hx; cases hx
    | some rx =>
      cases rx with
      | error e => rfl
      | ok y =>
        have := ih hrest
        cases hgl : goList enc rest with
        | none => rw [hgl] at this; cases this
        | some rr => cases rr <;> rfl

theorem encodeF_isSome : ∀ (n : Nat) (a : EncArgs) (obj : PyVal),
    obj.wsize ≤ n → (encodeF n a obj).isSome := by
  intro n
  induction n with
  | zero =>
    intro a obj hw
    have := wsize_pos obj
    omega
  | succ n ih =>
    intro a obj hw
    cases happ : applyCustom a.custom_encoder obj with
    | some rc => rw [encodeF_custom n a obj rc happ]; rfl
    | none =>
      cases obj with
      | enum c v => rw [encodeF_enum n a c v happ]; rfl
      | path s => rw [encodeF_path n a s happ]; rfl
      | none => rw [encodeF_none n a happ]; rfl
      | bool b => rw [encodeF_bool n a b happ]; rfl
      | int i => rw [encodeF_int n a i happ]; rfl
      | float f => rw [encodeF_float n a f happ]; rfl
      | str s => rw [encodeF_str n a s happ]; rfl
      | undef => rw [encodeF_undef n a happ]; rfl
      | dict es =>
        rw [encodeF_dict n a es happ]
        have hwd : PyVal.wsize (.dict es) = 1 + wsizeKV es := rfl
        have hs : ∀ p ∈ es,
            (encodeF n (dictChildArgs a) p.1).isSome ∧ (encodeF n (dictChildArgs a) p.2).isSome := by
          intro p hp
          have hb := wsizeKV_bound es p hp
          exact ⟨ih (dictChildArgs a) p.1 (by omega), ih (dictChildArgs a) p.2 (by omega)⟩
        have hgds := @goDict_isSome (keepEntry a) (encodeF n (dictChildArgs a)) es [] hs
        cases hgd : goDict (keepEntry a) (encodeF n (dictChildArgs a)) [] es with
        | none => rw [hgd] at hgds; cases hgds
        | some rd => cases rd <;> rfl
      | seq k xs =>
        rw [encodeF_seq n a k xs happ]
        have hwl : PyVal.wsize (.seq k xs) = 1 + wsizeL xs := rfl
        have hs : ∀ x ∈ xs, (encodeF n a x).isSome := by
          intro x hx
          have hb := wsizeL_bound xs x hx
          exact ih a x (by omega)
        have hgls := goList_isSome xs hs
        cases hgl : goList (encodeF n a) xs with
        | none => rw [hgl] at hgls; cases hgls
        | some rl => cases rl <;> rfl
      | bytes bs => rw [encodeF_bytes n a bs happ]; rfl
      | decimal sg ds e => rw [encodeF_decimal n a sg ds e happ]; rfl
      | pv1Model c rp => rw [encodeF_pv1 n a c rp happ]; rfl
      | obj c dOpt vOpt =>
        cases dOpt with
        | some prs =>
          rw [encodeF_objDict n a c prs vOpt happ]
          have hwo : PyVal.wsize (.obj c (some prs) vOpt) = 2 + (1 + wsizeKV prs) + wsizeOV vOpt := rfl
          have hwp : PyVal.wsize (.dict prs) = 1 + wsizeKV prs := rfl
          exact ih a (.dict prs) (by omega)
        | none =>
          cases vOpt with
          | some vs =>
            rw [encodeF_objVars n a c vs happ]
            have hwo : PyVal.wsize (.obj c Option.none (some vs)) = 2 + 0 + (1 + wsizeVars vs) := rfl
            have hwp : PyVal.wsize (.dict (mapVars vs)) = 1 + wsizeKV (mapVars vs) := rfl
            have hmv := wsizeKV_mapVars vs
            exact ih a (.dict (mapVars vs)) (by omega)
          | none => rw [encodeF_objFail n a c happ]; rfl

theorem encodeF_total (a : EncArgs) (obj : PyVal) : (encodeF obj.wsize a obj).isSome :=
  encodeF_isSome obj.wsize a obj le_rfl

/-- The model of `jsonable_encoder` (src/fastapi/logger.py lines 491-726): the
fuel-indexed `encodeF` run with enough fuel to terminate (`encodeF_total`).
`.ok r` is a returned value, `.error e` a raised exception. -/
def jsonable_encoder (a : EncArgs) (obj : PyVal) : Except EncErr PyVal :=
  (encodeF obj.wsize a obj).get (encodeF_total a obj)

theorem encodeF_eq_jsonable (n : Nat) (a : EncArgs) (obj : PyVal) (hn : obj.wsize ≤ n) :
    encodeF n a obj = some (jsonable_encoder a obj) := by
  have h1 : encodeF obj.wsize a obj = some (jsonable_encoder a obj) :=
    (Option.some_get (encodeF_total a obj)).symm
  exact encodeF_mono obj.wsize a obj _ h1 n hn

theorem jsonable_encoder_eq_of_encodeF (n : Nat) (a : EncArgs) (obj : PyVal)
    (r : Except EncErr PyVal) (h : encodeF n a obj = some r) :
    jsonable_encoder a obj = r := by
  have h2 := encodeF_mono n a obj r h (max n obj.wsize) (le_max_left _ _)
  have h3 := encodeF_eq_jsonable (max n obj.wsize) a obj (le_max_right _ _)
  rw [h2] at h3
  injection h3 with h4
  exact h4.symm

/-- The dict loop of lines 650-676 at the `Except` level (fuel elided), used to
state what `jsonable_encoder` does on a dict. -/
def encodeEntries (keep : PyVal → PyVal → Bool) (enc : PyVal → Except EncErr PyVal)
    (acc : List (PyVal × PyVal)) :
    List (PyVal × PyVal) → Except EncErr (List (PyVal × PyVal))
  | [] => .ok acc
  | (k, v) :: rest =>
    if keep k v then
      match enc k with
      | .error e => .error e
      | .ok ek =>
        match enc v with
        | .error e => .error e
        | .ok ev => encodeEntries keep enc (dictInsert acc ek ev) rest
    else encodeEntries keep enc acc rest

/-- The sequence loop of lines 679-693 at the `Except` level. -/
def encodeSeq (enc : PyVal → Except EncErr PyVal) : List PyVal → Except EncErr (List PyVal)
  | [] => .ok []
  | x :: xs =>
    match enc x with
    | .error e => .error e
    | .ok y =>
      match encodeSeq enc xs with
      | .error e => .error e
      | .ok ys => .ok (y :: ys)

theorem goDict_eq_encodeEntries {keep : PyVal → PyVal → Bool}
    {encO : PyVal → Option (Except EncErr PyVal)} {enc : PyVal → Except EncErr PyVal} :
    ∀ (l acc : List (PyVal × PyVal)),
      (∀ p ∈ l, encO p.1 = some (enc p.1) ∧ encO p.2 = some (enc p.2)) →
      goDict keep encO acc l = some (encodeEntries keep enc acc l) := by
  intro l
  induction l with
  | nil => intro acc _; rfl
  | cons q rest ih =>
    intro acc hl
    obtain ⟨k, v⟩ := q
    have hk := (hl (k, v) (List.mem_cons_self _ _)).1
    have hv := (hl (k, v) (List.mem_cons_self _ _)).2
    have hrest : ∀ p ∈ rest, encO p.1 = some (enc p.1) ∧ encO p.2 = some (enc p.2) :=
      fun p hp => hl p (List.mem_cons_of_mem _ hp)
    rw [goDict, encodeEntries]
    by_cases hkeep : keep k v
    · rw [if_pos hkeep, if_pos hkeep, hk, hv]
      cases enc k with
      | error e => rfl
      | ok ek =>
        cases enc v with
        | error e => rfl
        | ok ev => exact ih _ hrest
    · rw [if_neg hkeep, if_neg hkeep]
      exact ih _ hrest

theorem goList_eq_encodeSeq {encO : PyVal → Option (Except EncErr PyVal)}
    {enc : PyVal → Except EncErr PyVal} :
    ∀ l : List PyVal, (∀ x ∈ l, encO x = some (enc x)) →
      goList encO l = some (encodeSeq enc l) := by
  intro l
  induction l with
  | nil => intro _; rfl
  | cons x rest ih =>
    intro hl
    have hx := hl x (List.mem_cons_self _ _)
    have hrest : ∀ y ∈ rest, encO y = some (enc y) := fun y hy => hl y (List.mem_cons_of_mem _ hy)
    rw [goList, encodeSeq, hx]
    cases enc x with
    | error e => rfl
    | ok y =>
      rw [ih hrest]
      cases encodeSeq enc rest with
      | error e => rfl
      | ok ys => rfl

theorem jsonable_custom (a : EncArgs) (obj : PyVal) (r : PyVal)
    (h : applyCustom a.custom_encoder obj = some r) :
    jsonable_encoder a obj = .ok r :=
  jsonable_encoder_eq_of_encodeF (obj.wsize + 1) a obj _ (encodeF_custom obj.wsize a obj r h)

theorem jsonable_enum (a : EncArgs) (c : String) (v : PyVal)
    (h : applyCustom a.custom_encoder (.enum c v) = Option.none) :
    jsonable_encoder a (.enum c v) = .ok v :=
  jsonable_encoder_eq_of_encodeF _ a _ _ (encodeF_enum (PyVal.enum c v).wsize a c v h)

theorem jsonable_path (a : EncArgs) (s : String)
    (h : applyCustom a.custom_encoder (.path s) = Option.none) :
    jsonable_encoder a (.path s) = .ok (.str s) :=
  jsonable_encoder_eq_of_encodeF _ a _ _ (encodeF_path (PyVal.path s).wsize a s h)

theorem jsonable_none (a : EncArgs)
    (h : applyCustom a.custom_encoder .none = Option.none) :
    jsonable_encoder a .none = .ok .none :=
  jsonable_encoder_eq_of_encodeF _ a _ _ (encodeF_none PyVal.none.wsize a h)

theorem jsonable_bool (a : EncArgs) (b : Bool)
    (h : applyCustom a.custom_encoder (.bool b) = Option.none) :
    jsonable_encoder a (.bool b) = .ok (.bool b) :=
  jsonable_encoder_eq_of_encodeF _ a _ _ (encodeF_bool (PyVal.bool b).wsize a b h)

theorem jsonable_int (a : EncArgs) (i : Int)
    (h : applyCustom a.custom_encoder (.int i) = Option.none) :
    jsonable_encoder a (.int i) = .ok (.int i) :=
  jsonable_encoder_eq_of_encodeF _ a _ _ (encodeF_int (PyVal.int i).wsize a i h)

theorem jsonable_float (a : EncArgs) (f : PFloat)
    (h : applyCustom a.custom_encoder (.float f) = Option.none) :
    jsonable_encoder a (.float f) = .ok (.float f) :=
  jsonable_encoder_eq_of_encodeF _ a _ _ (encodeF_float (PyVal.float f).wsize a f h)

theorem jsonable_str (a : EncArgs) (s : String)
    (h : applyCustom a.custom_encoder (.str s) = Option.none) :
    jsonable_encoder a (.str s) = .ok (.str s) :=
  jsonable_encoder_eq_of_encodeF _ a _ _ (encodeF_str (PyVal.str s).wsize a s h)

theorem jsonable_undef (a : EncArgs)
    (h : applyCustom a.custom_encoder .undef = Option.none) :
    jsonable_encoder a .undef = .ok .none :=
  jsonable_encoder_eq_of_encodeF _ a _ _ (encodeF_undef PyVal.undef.wsize a h)

theorem jsonable_bytes (a : EncArgs) (bs : List Nat)
    (h : applyCustom a.custom_encoder (.bytes bs) = Option.none) :
    jsonable_encoder a (.bytes bs) = bytesTableEnc (.bytes bs) :=
  jsonable_encoder_eq_of_encodeF _ a _ _ (encodeF_bytes (PyVal.bytes bs).wsize a bs h)

theorem jsonable_decimal (a : EncArgs) (sg : Bool) (ds : List Nat) (e : DecExp)
    (h : applyCustom a.custom_encoder (.decimal sg ds e) = Option.none) :
    jsonable_encoder a (.decimal sg ds e) = decimal_encoder sg ds e :=
  jsonable_encoder_eq_of_encodeF _ a _ _
    (encodeF_decimal (PyVal.decimal sg ds e).wsize a sg ds e h)

theorem jsonable_pv1 (a : EncArgs) (c rp : String)
    (h : applyCustom a.custom_encoder (.pv1Model c rp) = Option.none) :
    jsonable_encoder a (.pv1Model c rp) = .error (.pv1NotSupported (pv1Msg rp)) :=
  jsonable_encoder_eq_of_encodeF _ a _ _ (encodeF_pv1 (PyVal.pv1Model c rp).wsize a c rp h)

theorem jsonable_objDict (a : EncArgs) (c : String) (prs : List (PyVal × PyVal))
    (vOpt : Option (List (String × PyVal)))
    (h : applyCustom a.custom_encoder (.obj c (some prs) vOpt) = Option.none) :
    jsonable_encoder a (.obj c (some prs) vOpt) = jsonable_encoder a (.dict prs) := by
  have h1 := encodeF_eq_jsonable (PyVal.dict prs).wsize a (.dict prs) le_rfl
  have h2 := encodeF_objDict (PyVal.dict prs).wsize a c prs vOpt h
  rw [h1] at h2
  exact jsonable_encoder_eq_of_encodeF _ a _ _ h2

theorem jsonable_objVars (a : EncArgs) (c : String) (vs : List (String × PyVal))
    (h : applyCustom a.custom_encoder (.obj c Option.none (some vs)) = Option.none) :
    jsonable_encoder a (.obj c Option.none (some vs))
      = jsonable_encoder a (.dict (mapVars vs)) := by
  have h1 := encodeF_eq_jsonable (PyVal.dict (mapVars vs)).wsize a (.dict (mapVars vs)) le_rfl
  have h2 := encodeF_objVars (PyVal.dict (mapVars vs)).wsize a c vs h
  rw [h1] at h2
  exact jsonable_encoder_eq_of_encodeF _ a _ _ h2

theorem jsonable_objFail (a : EncArgs) (c : String)
    (h : applyCustom a.custom_encoder (.obj c Option.none Option.none) = Option.none) :
    jsonable_encoder a (.obj c Option.none Option.none)
      = .error (.valueError [.typeErrorNotIterable c, .typeErrorNoDict c]) :=
  jsonable_encoder_eq_of_encodeF _ a _ _
    (encodeF_objFail (PyVal.obj c Option.none Option.none).wsize a c h)

theorem jsonable_dict (a : EncArgs) (es : List (PyVal × PyVal))
    (h : applyCustom a.custom_encoder (.dict es) = Option.none) :
    jsonable_encoder a (.dict es)
      = (encodeEntries (keepEntry a) (jsonable_encoder (dictChildArgs a)) [] es).map
          PyVal.dict := by
  have hpt : ∀ p ∈ es,
      encodeF (wsizeKV es) (dictChildArgs a) p.1
          = some (jsonable_encoder (dictChildArgs a) p.1) ∧
        encodeF (wsizeKV es) (dictChildArgs a) p.2
          = some (jsonable_encoder (dictChildArgs a) p.2) := by
    intro p hp
    have hb := wsizeKV_bound es p hp
    exact ⟨encodeF_eq_jsonable _ _ _ (by omega), encodeF_eq_jsonable _ _ _ (by omega)⟩
  have hgd := @goDict_eq_encodeEntries (keepEntry a) (encodeF (wsizeKV es) (dictChildArgs a))
    (jsonable_encoder (dictChildArgs a)) es [] hpt
  have h2 := encodeF_dict (wsizeKV es) a es h
  rw [hgd] at h2
  have h3 : encodeF (wsizeKV es + 1) a (.dict es)
      = some ((encodeEntries (keepEntry a) (jsonable_encoder (dictChildArgs a)) [] es).map
          PyVal.dict) := by
    rw [h2]
    cases encodeEntries (keepEntry a) (jsonable_encoder (dictChildArgs a)) [] es with
    | error e => rfl
    | ok out => rfl
  exact jsonable_encoder_eq_of_encodeF _ a _ _ h3

theorem jsonable_seq (a : EncArgs) (k : SeqKind) (xs : List PyVal)
    (h : applyCustom a.custom_encoder (.seq k xs) = Option.none) :
    jsonable_encoder a (.seq k xs)
      = (encodeSeq (jsonable_encoder a) xs).map (PyVal.seq .list) := by
  have hpt : ∀ x ∈ xs, encodeF (wsizeL xs) a x = some (jsonable_encoder a x) := by
    intro x hx
    have hb := wsizeL_bound xs x hx
    exact encodeF_eq_jsonable _ _ _ (by omega)
  have hgl := goList_eq_encodeSeq xs hpt
  have h2 := encodeF_seq (wsizeL xs) a k xs h
  rw [hgl] at h2
  have h3 : encodeF (wsizeL xs + 1) a (.seq k xs)
      = some ((encodeSeq (jsonable_encoder a) xs).map (PyVal.seq .list)) := by
    rw [h2]
    cases encodeSeq (jsonable_encoder a) xs with
    | error e => rfl
    | ok ys => rfl
  exact jsonable_encoder_eq_of_encodeF _ a _ _ h3

/-- The fields of the `Dependant` dataclass (src/fastapi/logger.py lines 34-54)
that the `oauth_scopes` property reads; the remaining fields do not influence it. -/
structure Dependant where
  own_oauth_scopes : Option (List String) := Option.none
  parent_oauth_scopes : Option (List String) := Option.none

/-- Model of `Dependant.oauth_scopes` (lines 56-63): start from a copy of
`parent_oauth_scopes` when truthy (`None` and the empty list are falsy), then
append every own scope not already present, preserving order. -/
def Dependant.oauth_scopes (d : Dependant) : List String :=
  let scopes :=
    match d.parent_oauth_scopes with
    | some l => if l.isEmpty then [] else l
    | Option.none => []
  (d.own_oauth_scopes.getD []).foldl
    (fun acc s => if s ∈ acc then acc else acc ++ [s]) scopes

/-- The C10 claim's description of the appended part: those elements of `own` not
already present in the accumulated list, in first-occurrence order. -/
def newScopes (acc : List String) : List String → List String
  | [] => []
  | s :: rest => if s ∈ acc then newScopes acc rest else s :: newScopes (acc ++ [s]) rest

theorem oauth_fold : ∀ (own acc : List String),
    own.foldl (fun acc s => if s ∈ acc then acc else acc ++ [s]) acc
      = acc ++ newScopes acc own := by
  intro own
  induction own with
  | nil => intro acc; simp [newScopes]
  | cons s rest ih =>
    intro acc
    rw [List.foldl_cons, newScopes]
    by_cases hs : s ∈ acc
    · rw [if_pos hs, if_pos hs, ih]
    · rw [if_neg hs, if_neg hs, ih]
      simp

theorem newScopes_nodup : ∀ (own acc : List String),
    (newScopes acc own).Nodup ∧ ∀ x ∈ newScopes acc own, x ∉ acc := by
  intro own
  induction own with
  | nil => intro acc; simp [newScopes]
  | cons s rest ih =>
    intro acc
    rw [newScopes]
    by_cases hs : s ∈ acc
    · rw [if_pos hs]; exact ih acc
    · rw [if_neg hs]
      obtain ⟨h1, h2⟩ := ih (acc ++ [s])
      refine ⟨List.nodup_cons.mpr ⟨fun hmem => (h2 s hmem) (by simp), h1⟩, ?_⟩
      intro x hx
      rcases List.mem_cons.mp hx with rfl | hx
      · exact hs
      · intro hxacc
        exact (h2 x hx) (by simp [hxacc])

/-- Tests whether a value is one of the JSON primitive leaves
(null, boolean, number, string). -/
def isPrimitive : PyVal → Bool
  | .none | .bool _ | .int _ | .float _ | .str _ => true
  | _ => false

/-- Tests whether a value is a Python `str`. -/
def isStrVal : PyVal → Bool
  | .str _ => true
  | _ => false

mutual

/-- The output grammar asserted by claim C1 as stated: primitives, ordered
sequences of such values, and STRING-keyed mappings of such values. -/
def isJsonValue : PyVal → Bool
  | .none | .bool _ | .int _ | .float _ | .str _ => true
  | .seq .list xs => isJsonValueL xs
  | .dict es => isJsonValueKV es
  | _ => false
termination_by structural a => a

def isJsonValueL : List PyVal → Bool
  | [] => true
  | x :: r => isJsonValue x && isJsonValueL r
termination_by structural a => a

def isJsonValueKV : List (PyVal × PyVal) → Bool
  | [] => true
  | (k, v) :: r => isStrVal k && isJsonValue v && isJsonValueKV r
termination_by structural a => a

end

mutual

/-- The amended C1 output grammar: primitives, lists of such values, and mappings
whose keys AND values are such values (keys are encoded values, not necessarily
strings). -/
def isEncOut : PyVal → Bool
  | .none | .bool _ | .int _ | .float _ | .str _ => true
  | .seq .list xs => isEncOutL xs
  | .dict es => isEncOutKV es
  | _ => false
termination_by structural a => a

def isEncOutL : List PyVal → Bool
  | [] => true
  | x :: r => isEncOut x && isEncOutL r
termination_by structural a => a

def isEncOutKV : List (PyVal × PyVal) → Bool
  | [] => true
  | (k, v) :: r => isEncOut k && isEncOut v && isEncOutKV r
termination_by structural a => a

end

mutual

/-- Every enum member occurring anywhere inside the value has a primitive
underlying value (the hypothesis of the amended C1). -/
def enumsPrim : PyVal → Bool
  | .enum _ v => isPrimitive v
  | .dict es => enumsPrimKV es
  | .seq _ xs => enumsPrimL xs
  | .obj _ d v => enumsPrimOD d && enumsPrimOV v
  | _ => true
termination_by structural a => a

def enumsPrimL : List PyVal → Bool
  | [] => true
  | x :: r => enumsPrim x && enumsPrimL r
termination_by structural a => a

def enumsPrimKV : List (PyVal × PyVal) → Bool
  | [] => true
  | (k, v) :: r => enumsPrim k && enumsPrim v && enumsPrimKV r
termination_by structural a => a

def enumsPrimOD : Option (List (PyVal × PyVal)) → Bool
  | Option.none => true
  | some l => enumsPrimKV l
termination_by structural a => a

def enumsPrimOV : Option (List (String × PyVal)) → Bool
  | Option.none => true
  | some l => enumsPrimVars l
termination_by structural a => a

def enumsPrimVars : List (String × PyVal) → Bool
  | [] => true
  | (_, v) :: r => enumsPrim v && enumsPrimVars r
termination_by structural a => a

end

mutual

/-- An "already-encoded" value in the sense of claim C4: primitives, lists of such
values, and dicts whose keys are pairwise-distinct strings not starting with
`"_sa"` and whose values are such values. -/
def isEncoded : PyVal → Bool
  | .none | .bool _ | .int _ | .float _ | .str _ => true
  | .seq .list xs => isEncodedL xs
  | .dict es => isEncodedKV es
  | _ => false
termination_by structural a => a

def isEncodedL : List PyVal → Bool
  | [] => true
  | x :: r => isEncoded x && isEncodedL r
termination_by structural a => a

def isEncodedKV : List (PyVal × PyVal) → Bool
  | [] => true
  | (k, v) :: r =>
    (match k with
     | .str s => !strStartsWith s "_sa"
     | _ => false)
      && isEncoded v && !(r.any (fun p => pyBEq p.1 k)) && isEncodedKV r
termination_by structural a => a

end

theorem isPrim_encOut : ∀ v : PyVal, isPrimitive v = true → isEncOut v = true := by
  intro v h
  cases v <;> first | rfl | exact Bool.noConfusion h

theorem enumsPrimKV_mem : ∀ (es : List (PyVal × PyVal)), enumsPrimKV es = true →
    ∀ p ∈ es, enumsPrim p.1 = true ∧ enumsPrim p.2 = true := by
  intro es
  induction es with
  | nil => intro _ p hp; cases hp
  | cons q r ih =>
    intro h p hp
    obtain ⟨k, v⟩ := q
    rw [show enumsPrimKV ((k, v) :: r)
          = (enumsPrim k && enumsPrim v && enumsPrimKV r) from rfl] at h
    simp only [Bool.and_eq_true] at h
    rcases List.mem_cons.mp hp with rfl | hp
    · exact ⟨h.1.1, h.1.2⟩
    · exact ih h.2 p hp

theorem enumsPrimL_mem : ∀ (xs : List PyVal), enumsPrimL xs = true →
    ∀ x ∈ xs, enumsPrim x = true := by
  intro xs
  induction xs with
  | nil => intro _ x hx; cases hx
  | cons y r ih =>
    intro h x hx
    rw [show enumsPrimL (y :: r) = (enumsPrim y && enumsPrimL r) from rfl] at h
    simp only [Bool.and_eq_true] at h
    rcases List.mem_cons.mp hx with rfl | hx
    · exact h.1
    · exact ih h.2 x hx

theorem enumsPrimKV_mapVars : ∀ vs : List (String × PyVal), enumsPrimVars vs = true →
    enumsPrimKV (mapVars vs) = true := by
  intro vs
  induction vs with
  | nil => intro _; rfl
  | cons q r ih =>
    intro h
    obtain ⟨k, v⟩ := q
    rw [show enumsPrimVars ((k, v) :: r) = (enumsPrim v && enumsPrimVars r) from rfl] at h
    simp only [Bool.and_eq_true] at h
    rw [show mapVars ((k, v) :: r) = (.str k, v) :: mapVars r from rfl]
    rw [show enumsPrimKV ((PyVal.str k, v) :: mapVars r)
          = (enumsPrim (.str k) && enumsPrim v && enumsPrimKV (mapVars r)) from rfl]
    rw [show enumsPrim (PyVal.str k) = true from rfl, h.1, ih h.2]
    rfl

theorem isEncOutKV_append : ∀ (l1 l2 : List (PyVal × PyVal)),
    isEncOutKV (l1 ++ l2) = (isEncOutKV l1 && isEncOutKV l2) := by
  intro l1 l2
  induction l1 with
  | nil =>
    rw [List.nil_append, show isEncOutKV ([] : List (PyVal × PyVal)) = true from rfl,
      Bool.true_and]
  | cons q r ih =>
    obtain ⟨k, v⟩ := q
    rw [List.cons_append]
    rw [show isEncOutKV ((k, v) :: (r ++ l2))
          = (isEncOut k && isEncOut v && isEncOutKV (r ++ l2)) from rfl]
    rw [show isEncOutKV ((k, v) :: r) = (isEncOut k && isEncOut v && isEncOutKV r) from rfl]
    rw [ih]
    simp [Bool.and_assoc]

theorem isEncOutKV_overwrite : ∀ (acc : List (PyVal × PyVal)) (k v : PyVal),
    isEncOutKV acc = true → isEncOut v = true →
    isEncOutKV (acc.map (fun p => if pyBEq p.1 k then (p.1, v) else p)) = true := by
  intro acc k v hacc hv
  induction acc with
  | nil => rfl
  | cons q r ih =>
    obtain ⟨k1, v1⟩ := q
    rw [show isEncOutKV ((k1, v1) :: r)
          = (isEncOut k1 && isEncOut v1 && isEncOutKV r) from rfl] at hacc
    simp only [Bool.and_eq_true] at hacc
    rw [List.map_cons]
    show isEncOutKV ((if pyBEq k1 k = true then (k1, v) else (k1, v1)) ::
        r.map (fun p => if pyBEq p.1 k then (p.1, v) else p)) = true
    by_cases hb : pyBEq k1 k
    · rw [if_pos hb]
      rw [show isEncOutKV ((k1, v) :: r.map (fun p => if pyBEq p.1 k then (p.1, v) else p))
            = (isEncOut k1 && isEncOut v
                && isEncOutKV (r.map (fun p => if pyBEq p.1 k then (p.1, v) else p))) from rfl]
      rw [hacc.1.1, hv, ih hacc.2]
      rfl
    · rw [if_neg hb]
      rw [show isEncOutKV ((k1, v1) :: r.map (fun p => if pyBEq p.1 k then (p.1, v) else p))
            = (isEncOut k1 && isEncOut v1
                && isEncOutKV (r.map (fun p => if pyBEq p.1 k then (p.1, v) else p))) from rfl]
      rw [hacc.1.1, hacc.1.2, ih hacc.2]
      rfl

theorem isEncOutKV_dictInsert : ∀ (acc : List (PyVal × PyVal)) (k v : PyVal),
    isEncOutKV acc = true → isEncOut k = true → isEncOut v = true →
    isEncOutKV (dictInsert acc k v) = true := by
  intro acc k v hacc hk hv
  rw [dictInsert]
  by_cases hany : acc.any (fun p => pyBEq p.1 k)
  · rw [if_pos hany]
    exact isEncOutKV_overwrite acc k v hacc hv
  · rw [if_neg hany]
    rw [isEncOutKV_append, hacc]
    rw [show isEncOutKV [(k, v)] = (isEncOut k && isEncOut v && true) from rfl]
    rw [hk, hv]
    rfl

theorem goDict_encOut {keep : PyVal → PyVal → Bool}
    {enc : PyVal → Option (Except EncErr PyVal)} :
    ∀ (l acc out : List (PyVal × PyVal)),
      (∀ p ∈ l, (∀ r, enc p.1 = some (.ok r) → isEncOut r = true) ∧
                (∀ r, enc p.2 = some (.ok r) → isEncOut r = true)) →
      isEncOutKV acc = true →
      goDict keep enc acc l = some (.ok out) → isEncOutKV out = true := by
  intro l
  induction l with
  | nil =>
    intro acc out _ hacc h
    rw [goDict] at h
    injection h with h1
    injection h1 with h2
    rw [← h2]
    exact hacc
  | cons q rest ih =>
    intro acc out hl hacc h
    obtain ⟨k, v⟩ := q
    have hk := (hl (k, v) (List.mem_cons_self _ _)).1
    have hv := (hl (k, v) (List.mem_cons_self _ _)).2
    have hrest : ∀ p ∈ rest, (∀ r, enc p.1 = some (.ok r) → isEncOut r = true) ∧
        (∀ r, enc p.2 = some (.ok r) → isEncOut r = true) :=
      fun p hp => hl p (List.mem_cons_of_mem _ hp)
    rw [goDict] at h
    by_cases hkeep : keep k v
    · rw [if_pos hkeep] at h
      cases hek : enc k with
      | none => rw [hek] at h; cases h
      | some rk =>
        rw [hek] at h
        cases rk with
        | error e =>
          injection h with h1
          exact Except.noConfusion h1
        | ok ek =>
          cases hev : enc v with
          | none => rw [hev] at h; cases h
          | some rv =>
            rw [hev] at h
            cases rv with
            | error e =>
              injection h with h1
              exact Except.noConfusion h1
            | ok ev =>
              exact ih _ _ hrest
                (isEncOutKV_dictInsert acc ek ev hacc (hk ek hek) (hv ev hev)) h
    · rw [if_neg hkeep] at h
      exact ih _ _ hrest hacc h

theorem goList_encOut {enc : PyVal → Option (Except EncErr PyVal)} :
    ∀ (l out : List PyVal),
      (∀ x ∈ l, ∀ r, enc x = some (.ok r) → isEncOut r = true) →
      goList enc l = some (.ok out) → isEncOutL out = true := by
  intro l
  induction l with
  | nil =>
    intro out _ h
    rw [goList] at h
    injection h with h1
    injection h1 with h2
    rw [← h2]
    rfl
  | cons x rest ih =>
    intro out hl h
    have hx := hl x (List.mem_cons_self _ _)
    have hrest : ∀ y ∈ rest, ∀ r, enc y = some (.ok r) → isEncOut r = true :=
      fun y hy => hl y (List.mem_cons_of_mem _ hy)
    rw [goList] at h
    cases hex : enc x with
    | none => rw [hex] at h; cases h
    | some rx =>
      rw [hex] at h
      cases rx with
      | error e =>
        injection h with h1
        exact Except.noConfusion h1
      | ok y =>
        cases hgl : goList enc rest with
        | none => rw [hgl] at h; cases h
        | some rr =>
          rw [hgl] at h
          cases rr with
          | error e =>
            injection h with h1
            exact Except.noConfusion h1
          | ok ys =>
            injection h with h1
            injection h1 with h2
            rw [← h2]
            rw [show isEncOutL (y :: ys) = (isEncOut y && isEncOutL ys) from rfl]
            rw [hx y hex, ih ys hrest hgl]
            rfl

theorem encOut_of_encodeF : ∀ (n : Nat) (a : EncArgs) (obj : PyVal) (r : PyVal),
    a.custom_encoder = [] → enumsPrim obj = true →
    encodeF n a obj = some (.ok r) → isEncOut r = true := by
  intro n
  induction n with
  | zero =>
    intro a obj r _ _ h
    rw [encodeF_zero] at h
    cases h
  | succ n ih =>
    intro a obj r hce hep h
    have happ : applyCustom a.custom_encoder obj = Option.none := by rw [hce]; rfl
    cases obj with
    | enum c v =>
      rw [encodeF_enum n a c v happ] at h
      injection h with h1
      injection h1 with h2
      rw [← h2]
      exact isPrim_encOut v hep
    | path s =>
      rw [encodeF_path n a s happ] at h
      injection h with h1
      injection h1 with h2
      rw [← h2]
      rfl
    | none =>
      rw [encodeF_none n a happ] at h
      injection h with h1
      injection h1 with h2
      rw [← h2]
      rfl
    | bool b =>
      rw [encodeF_bool n a b happ] at h
      injection h with h1
      injection h1 with h2
      rw [← h2]
      rfl
    | int i =>
      rw [encodeF_int n a i happ] at h
      injection h with h1
      injection h1 with h2
      rw [← h2]
      rfl
    | float f =>
      rw [encodeF_float n a f happ] at h
      injection h with h1
      injection h1 with h2
      rw [← h2]
      rfl
    | str s =>
      rw [encodeF_str n a s happ] at h
      injection h with h1
      injection h1 with h2
      rw [← h2]
      rfl
    | undef =>
      rw [encodeF_undef n a happ] at h
      injection h with h1
      injection h1 with h2
      rw [← h2]
      rfl
    | dict es =>
      rw [encodeF_dict n a es happ] at h
      have hmem := enumsPrimKV_mem es hep
      have hce' : (dictChildArgs a).custom_encoder = [] := hce
      have hl : ∀ p ∈ es,
          (∀ r', encodeF n (dictChildArgs a) p.1 = some (.ok r') → isEncOut r' = true) ∧
          (∀ r', encodeF n (dictChildArgs a) p.2 = some (.ok r') → isEncOut r' = true) := by
        intro p hp
        exact ⟨fun r' hr' => ih (dictChildArgs a) p.1 r' hce' (hmem p hp).1 hr',
               fun r' hr' => ih (dictChildArgs a) p.2 r' hce' (hmem p hp).2 hr'⟩
      cases hgd : goDict (keepEntry a) (encodeF n (dictChildArgs a)) [] es with
      | none => rw [hgd] at h; cases h
      | some rd =>
        rw [hgd] at h
        cases rd with
        | error e =>
          injection h with h1
          exact Except.noConfusion h1
        | ok out =>
          injection h with h1
          injection h1 with h2
          rw [← h2]
          exact goDict_encOut es [] out hl rfl hgd
    | seq k xs =>
      rw [encodeF_seq n a k xs happ] at h
      have hmem := enumsPrimL_mem xs hep
      have hl : ∀ x ∈ xs, ∀ r', encodeF n a x = some (.ok r') → isEncOut r' = true :=
        fun x hx r' hr' => ih a x r' hce (hmem x hx) hr'
      cases hgl : goList (encodeF n a) xs with
      | none => rw [hgl] at h; cases h
      | some rl =>
        rw [hgl] at h
        cases rl with
        | error e =>
          injection h with h1
          exact Except.noConfusion h1
        | ok ys =>
          injection h with h1
          injection h1 with h2
          rw [← h2]
          exact goList_encOut xs ys hl hgl
    | bytes bs =>
      rw [encodeF_bytes n a bs happ] at h
      rw [bytesTableEnc] at h
      cases hdec : bytesDecode bs with
      | none =>
        rw [hdec] at h
        injection h with h1
        exact Except.noConfusion h1
      | some s =>
        rw [hdec] at h
        injection h with h1
        injection h1 with h2
        rw [← h2]
        rfl
    | decimal sg ds e =>
      rw [encodeF_decimal n a sg ds e happ] at h
      cases e with
      | exp m =>
        rw [decimal_encoder] at h
        by_cases hm : 0 ≤ m
        · rw [if_pos hm] at h
          injection h with h1
          injection h1 with h2
          rw [← h2]
          rfl
        · rw [if_neg hm] at h
          injection h with h1
          injection h1 with h2
          rw [← h2]
          rfl
      | nanE =>
        injection h with h1
        injection h1 with h2
        rw [← h2]
        rfl
      | snanE =>
        injection h with h1
        exact Except.noConfusion h1
      | infE =>
        injection h with h1
        injection h1 with h2
        rw [← h2]
        cases sg <;> rfl
    | pv1Model c rp =>
      rw [encodeF_pv1 n a c rp happ] at h
      injection h with h1
      exact Except.noConfusion h1
    | obj c dOpt vOpt =>
      cases dOpt with
      | some prs =>
        rw [encodeF_objDict n a c prs vOpt happ] at h
        have hep' : enumsPrim (.dict prs) = true := by
          rw [show enumsPrim (PyVal.obj c (some prs) vOpt)
                = (enumsPrimKV prs && enumsPrimOV vOpt) from rfl] at hep
          simp only [Bool.and_eq_true] at hep
          exact hep.1
        exact ih a (.dict prs) r hce hep' h
      | none =>
        cases vOpt with
        | some vs =>
          rw [encodeF_objVars n a c vs happ] at h
          have hep' : enumsPrim (.dict (mapVars vs)) = true := by
            rw [show enumsPrim (PyVal.obj c Option.none (some vs))
                  = (true && enumsPrimVars vs) from rfl] at hep
            simp only [Bool.true_and] at hep
            exact enumsPrimKV_mapVars vs hep
          exact ih a (.dict (mapVars vs)) r hce hep' h
        | none =>
          rw [encodeF_objFail n a c happ] at h
          injection h with h1
          exact Except.noConfusion h1

theorem pyMem_iff : ∀ (x : PyVal) (l : List PyVal), pyMem x l = true ↔ x ∈ l := by
  intro x l
  rw [pyMem, List.any_eq_true]
  constructor
  · rintro ⟨y, hy, hxy⟩
    rw [pyBEq_iff x y] at hxy
    rw [hxy]
    exact hy
  · intro hx
    exact ⟨x, hx, (pyBEq_iff x x).mpr rfl⟩

theorem pyMem_false_iff (x : PyVal) (l : List PyVal) : pyMem x l = false ↔ x ∉ l := by
  rw [← pyMem_iff]
  cases pyMem x l <;> simp

theorem bool_guard (x y : Bool) : (!x || !y) = true ↔ (x = true → y = false) := by
  cases x <;> cases y <;> simp

theorem bool_guard' (x y : Bool) : (!x || !y) = true ↔ (y = true → x = false) := by
  cases x <;> cases y <;> simp

theorem sqlalchemyKey_false_iff (k : PyVal) :
    sqlalchemyKey k = false ↔ ∀ s, k = .str s → strStartsWith s "_sa" = false := by
  cases k <;> simp [sqlalchemyKey]

theorem isNone_false_iff (v : PyVal) : isNone v = false ↔ v ≠ .none := by
  cases v <;> simp [isNone]

theorem allowedKey_iff (a : EncArgs) (k : PyVal) :
    allowedKey a k = true ↔
      ((∀ l, a.include' = some l → k ∈ l) ∧ (∀ l, a.exclude = some l → k ∉ l)) := by
  rw [allowedKey]
  cases hinc : a.include' with
  | none =>
    cases hexc : a.exclude with
    | none => simp
    | some l2 => simp [pyMem_iff, pyMem_false_iff]
  | some l1 =>
    cases hexc : a.exclude with
    | none => simp [pyMem_iff]
    | some l2 => simp [pyMem_iff, pyMem_false_iff]

/-- The key filter of claim C3, spelled from the claim's text: the key is in
`include` (all keys when absent), not in `exclude`, not an `"_sa"`-prefixed string
when `sqlalchemy_safe`, and its value is not `None` when `exclude_none`. -/
def ClaimedKeep (a : EncArgs) (k v : PyVal) : Prop :=
  (∀ l, a.include' = some l → k ∈ l) ∧
  (∀ l, a.exclude = some l → k ∉ l) ∧
  (a.sqlalchemy_safe = true → ∀ s, k = .str s → strStartsWith s "_sa" = false) ∧
  (a.exclude_none = true → v ≠ .none)

theorem keepEntry_iff (a : EncArgs) (k v : PyVal) :
    keepEntry a k v = true ↔ ClaimedKeep a k v := by
  rw [keepEntry, ClaimedKeep]
  simp only [Bool.and_eq_true]
  rw [bool_guard, bool_guard', allowedKey_iff, sqlalchemyKey_false_iff, isNone_false_iff]
  tauto

theorem mem_keys_dictInsert (acc : List (PyVal × PyVal)) (k v x : PyVal) :
    x ∈ (dictInsert acc k v).map Prod.fst ↔ x ∈ acc.map Prod.fst ∨ x = k := by
  rw [dictInsert]
  by_cases hany : acc.any (fun p => pyBEq p.1 k)
  · rw [if_pos hany]
    have hkeys : (acc.map (fun p => if pyBEq p.1 k then (p.1, v) else p)).map Prod.fst
        = acc.map Prod.fst := by
      rw [List.map_map]
      apply List.map_congr_left
      intro p _
      by_cases hb : pyBEq p.1 k
      · simp [Function.comp, hb]
      · simp [Function.comp, hb]
    rw [hkeys]
    rw [List.any_eq_true] at hany
    obtain ⟨p, hp, hpk⟩ := hany
    rw [pyBEq_iff] at hpk
    constructor
    · exact Or.inl
    · rintro (hx | rfl)
      · exact hx
      · rw [← hpk]
        exact List.mem_map_of_mem Prod.fst hp
  · rw [if_neg hany]
    rw [List.map_append]
    simp

theorem encodeEntries_keys {keep : PyVal → PyVal → Bool}
    {enc : PyVal → Except EncErr PyVal} :
    ∀ (l acc out : List (PyVal × PyVal)),
      encodeEntries keep enc acc l = .ok out →
      ∀ x, x ∈ out.map Prod.fst ↔
        (x ∈ acc.map Prod.fst ∨ ∃ p, p ∈ l ∧ keep p.1 p.2 = true ∧ enc p.1 = .ok x) := by
  intro l
  induction l with
  | nil =>
    intro acc out h x
    rw [encodeEntries] at h
    injection h with h1
    rw [← h1]
    simp
  | cons q rest ih =>
    intro acc out h x
    obtain ⟨k, v⟩ := q
    rw [encodeEntries] at h
    by_cases hkeep : keep k v
    · rw [if_pos hkeep] at h
      cases hek : enc k with
      | error e => rw [hek] at h; exact Except.noConfusion h
      | ok ek =>
        rw [hek] at h
        cases hev : enc v with
        | error e => rw [hev] at h; exact Except.noConfusion h
        | ok ev =>
          rw [hev] at h
          rw [ih _ _ h x, mem_keys_dictInsert]
          constructor
          · rintro ((hx | rfl) | ⟨p, hp, hkp, hep⟩)
            · exact Or.inl hx
            · exact Or.inr ⟨(k, v), List.mem_cons_self _ _, hkeep, hek⟩
            · exact Or.inr ⟨p, List.mem_cons_of_mem _ hp, hkp, hep⟩
          · rintro (hx | ⟨p, hp, hkp, hep⟩)
            · exact Or.inl (Or.inl hx)
            · rcases List.mem_cons.mp hp with rfl | hp
              · rw [hek] at hep
                injection hep with hx
                exact Or.inl (Or.inr hx.symm)
              · exact Or.inr ⟨p, hp, hkp, hep⟩
    · rw [if_neg hkeep] at h
      rw [ih _ _ h x]
      constructor
      · rintro (hx | ⟨p, hp, hkp, hep⟩)
        · exact Or.inl hx
        · exact Or.inr ⟨p, List.mem_cons_of_mem _ hp, hkp, hep⟩
      · rintro (hx | ⟨p, hp, hkp, hep⟩)
        · exact Or.inl hx
        · rcases List.mem_cons.mp hp with rfl | hp
          · rw [hkp] at hkeep
            exact absurd rfl hkeep
          · exact Or.inr ⟨p, hp, hkp, hep⟩

theorem pyBEq_false_iff (a b : PyVal) : pyBEq a b = false ↔ a ≠ b := by
  constructor
  · intro hf heq
    rw [heq, (pyBEq_iff b b).mpr rfl] at hf
    exact Bool.noConfusion hf
  · intro hne
    cases hb : pyBEq a b
    · rfl
    · exact absurd ((pyBEq_iff a b).mp hb) hne

theorem keep_default (s : String) (v : PyVal) (h : strStartsWith s "_sa" = false) :
    keepEntry defaultArgs (.str s) v = true := by
  rw [keepEntry]
  rw [show sqlalchemyKey (.str s) = strStartsWith s "_sa" from rfl, h]
  simp [defaultArgs, allowedKey]

theorem dictInsert_append (acc : List (PyVal × PyVal)) (k v : PyVal)
    (h : acc.any (fun p => pyBEq p.1 k) = false) :
    dictInsert acc k v = acc ++ [(k, v)] := by
  rw [dictInsert, if_neg]
  rw [h]
  exact Bool.noConfusion

theorem isEncodedKV_cons (k v : PyVal) (rest : List (PyVal × PyVal))
    (h : isEncodedKV ((k, v) :: rest) = true) :
    (∃ s, k = .str s ∧ strStartsWith s "_sa" = false) ∧ isEncoded v = true ∧
      (rest.any fun p => pyBEq p.1 k) = false ∧ isEncodedKV rest = true := by
  cases k with
  | str s =>
    rw [show isEncodedKV ((PyVal.str s, v) :: rest)
          = ((!strStartsWith s "_sa") && isEncoded v
              && !(rest.any fun p => pyBEq p.1 (PyVal.str s)) && isEncodedKV rest)
        from rfl] at h
    simp only [Bool.and_eq_true, Bool.not_eq_true'] at h
    exact ⟨⟨s, rfl, h.1.1.1⟩, h.1.1.2, h.1.2, h.2⟩
  | none => exact Bool.noConfusion h
  | bool _ => exact Bool.noConfusion h
  | int _ => exact Bool.noConfusion h
  | float _ => exact Bool.noConfusion h
  | bytes _ => exact Bool.noConfusion h
  | decimal _ _ _ => exact Bool.noConfusion h
  | enum _ _ => exact Bool.noConfusion h
  | path _ => exact Bool.noConfusion h
  | undef => exact Bool.noConfusion h
  | dict _ => exact Bool.noConfusion h
  | seq _ _ => exact Bool.noConfusion h
  | pv1Model _ _ => exact Bool.noConfusion h
  | obj _ _ _ => exact Bool.noConfusion h

mutual

theorem encoded_id : ∀ v : PyVal, isEncoded v = true → jsonable_encoder defaultArgs v = .ok v
  | .none, _ => jsonable_none defaultArgs rfl
  | .bool b, _ => jsonable_bool defaultArgs b rfl
  | .int i, _ => jsonable_int defaultArgs i rfl
  | .float f, _ => jsonable_float defaultArgs f rfl
  | .str s, _ => jsonable_str defaultArgs s rfl
  | .seq .list xs, h => by
      rw [jsonable_seq defaultArgs .list xs rfl, encoded_seq_id xs h]
      rfl
  | .dict es, h => by
      rw [jsonable_dict defaultArgs es rfl,
        show dictChildArgs defaultArgs = defaultArgs from rfl,
        encoded_entries_id es h [] (fun p _ => rfl)]
      rfl
  | .seq .tuple _, h => Bool.noConfusion h
  | .seq .set _, h => Bool.noConfusion h
  | .seq .frozenset _, h => Bool.noConfusion h
  | .seq .deque _, h => Bool.noConfusion h
  | .seq .gen _, h => Bool.noConfusion h
  | .bytes _, h => Bool.noConfusion h
  | .decimal _ _ _, h => Bool.noConfusion h
  | .enum _ _, h => Bool.noConfusion h
  | .path _, h => Bool.noConfusion h
  | .undef, h => Bool.noConfusion h
  | .pv1Model _ _, h => Bool.noConfusion h
  | .obj _ _ _, h => Bool.noConfusion h

theorem encoded_seq_id : ∀ xs : List PyVal, isEncodedL xs = true →
    encodeSeq (jsonable_encoder defaultArgs) xs = .ok xs
  | [], _ => rfl
  | x :: r, h => by
      rw [show isEncodedL (x :: r) = (isEncoded x && isEncodedL r) from rfl] at h
      simp only [Bool.and_eq_true] at h
      rw [encodeSeq, encoded_id x h.1, encoded_seq_id r h.2]

theorem encoded_entries_id : ∀ (es : List (PyVal × PyVal)), isEncodedKV es = true →
    ∀ acc : List (PyVal × PyVal),
      (∀ p ∈ es, acc.any (fun q => pyBEq q.1 p.1) = false) →
      encodeEntries (keepEntry defaultArgs) (jsonable_encoder defaultArgs) acc es
        = .ok (acc ++ es)
  | [], _, acc, _ => by
      rw [encodeEntries]
      simp
  | (k, v) :: rest, h, acc, hdis => by
      obtain ⟨⟨s, rfl, hs⟩, hv, hnodup, hrest⟩ := isEncodedKV_cons k v rest h
      have hdis' : ∀ p ∈ rest,
          ((acc ++ [(PyVal.str s, v)]).any fun q => pyBEq q.1 p.1) = false := by
        intro p hp
        rw [List.any_append]
        rw [hdis p (List.mem_cons_of_mem _ hp)]
        have hpf : pyBEq p.1 (PyVal.str s) = false := by
          rw [List.any_eq_false] at hnodup
          have hthis := hnodup p hp
          cases hb : pyBEq p.1 (PyVal.str s)
          · rfl
          · exact absurd hb hthis
        have hne : PyVal.str s ≠ p.1 := fun heq => (pyBEq_false_iff _ _).mp hpf heq.symm
        rw [show ([(PyVal.str s, v)].any fun q => pyBEq q.1 p.1)
              = (pyBEq (PyVal.str s) p.1 || false) from rfl]
        rw [(pyBEq_false_iff _ _).mpr hne]
        rfl
      rw [encodeEntries, if_pos (keep_default s v hs), encoded_id (.str s) rfl,
        encoded_id v hv]
      show encodeEntries (keepEntry defaultArgs) (jsonable_encoder defaultArgs)
        (dictInsert acc (PyVal.str s) v) rest = .ok (acc ++ (PyVal.str s, v) :: rest)
      rw [dictInsert_append acc (PyVal.str s) v (hdis (PyVal.str s, v) (List.mem_cons_self _ _))]
      rw [encoded_entries_id rest hrest (acc ++ [(PyVal.str s, v)]) hdis']
      simp

end

/-- C1 (counterexample): the encoder's output is NOT always built from primitives,
sequences and string-keyed mappings.  A dict key `1` stays the integer `1` (the
mapping is not string-keyed), an enum member whose `.value` is a `bytes` object is
returned with the raw bytes embedded in the output, and a custom encoder's result
is returned verbatim even when it is not JSON-safe. -/
theorem c1_counterexample :
    jsonable_encoder defaultArgs (.dict [(.int 1, .enum "E" (.bytes [104]))])
        = .ok (.dict [(.int 1, .bytes [104])])
      ∧ isJsonValue (.dict [(.int 1, .bytes [104])]) = false
      ∧ jsonable_encoder
          { defaultArgs with custom_encoder := [(.intT, fun _ => .bytes [0])] } (.int 0)
          = .ok (.bytes [0])
      ∧ isJsonValue (.bytes [0]) = false :=
  ⟨rfl, rfl, rfl, rfl⟩

/-- C1 (amended): for every input that contains no enum member with a
non-primitive underlying value, encoded with no custom encoders, every value the
encoder returns is built only from null, booleans, numbers, strings, ordered
sequences of such returned values, and mappings whose keys and values are such
returned values (keys are encoded values, not necessarily strings), recursively
and with no cycles. -/
theorem c1_amended (a : EncArgs) (obj : PyVal) (r : PyVal)
    (hce : a.custom_encoder = []) (hep : enumsPrim obj = true)
    (hret : jsonable_encoder a obj = .ok r) :
    isEncOut r = true := by
  have h := encodeF_eq_jsonable obj.wsize a obj le_rfl
  rw [hret] at h
  exact encOut_of_encodeF obj.wsize a obj r hce hep h

/-- C1 witness: the amended theorem applied at a concrete nested input. -/
theorem c1_amended_witness :
    isEncOut (.dict [(.str "a", .int 5), (.int 2, .seq .list [.none])]) = true :=
  c1_amended defaultArgs
    (.dict [(.str "a", .enum "E" (.int 5)), (.int 2, .seq .tuple [.none])])
    (.dict [(.str "a", .int 5), (.int 2, .seq .list [.none])]) rfl rfl rfl

/-- C2 (counterexample): `Decimal("1.0")` has tuple (sign 0, digits (1,0),
exponent -1); its exponent is negative, so `decimal_encoder` returns
`float(Decimal("1.0"))` — a float, not the integer 1 that the claim asserts
(the source docstring itself shows `decimal_encoder(Decimal("1.0")) == 1.0`). -/
theorem c2_counterexample :
    jsonable_encoder defaultArgs (.decimal false [1, 0] (.exp (-1)))
        = .ok (.float (.val (decimalRat false [1, 0] (-1))))
      ∧ PyVal.float (.val (decimalRat false [1, 0] (-1))) ≠ PyVal.int 1 :=
  ⟨rfl, by simp⟩

/-- C2 (amended): the encoder applies `decimal_encoder` to every `Decimal`; a
`Decimal` whose tuple exponent is a nonnegative integer encodes as an integer and
any other finite `Decimal` encodes as a float; `encode(Decimal("1.0"))` is the
float `1.0` (not the integer 1, since the tuple exponent of `Decimal("1.0")` is
-1), `encode(Decimal("1.50"))` is the float `1.5`, `encode(Decimal("NaN"))` is
the NaN float, and `encode(Decimal("1"))` is the integer 1. -/
theorem c2_amended :
    (∀ (sg : Bool) (ds : List Nat) (e : DecExp),
        jsonable_encoder defaultArgs (.decimal sg ds e) = decimal_encoder sg ds e)
    ∧ (∀ (sg : Bool) (ds : List Nat) (n : Int), 0 ≤ n →
        decimal_encoder sg ds (.exp n) = .ok (.int (decimalInt sg ds n.toNat)))
    ∧ (∀ (sg : Bool) (ds : List Nat) (n : Int), n < 0 →
        decimal_encoder sg ds (.exp n) = .ok (.float (.val (decimalRat sg ds n))))
    ∧ jsonable_encoder defaultArgs (.decimal false [1, 0] (.exp (-1)))
        = .ok (.float (.val 1))
    ∧ jsonable_encoder defaultArgs (.decimal false [1, 5, 0] (.exp (-2)))
        = .ok (.float (.val (3 / 2)))
    ∧ jsonable_encoder defaultArgs (.decimal false [] .nanE) = .ok (.float .nan)
    ∧ jsonable_encoder defaultArgs (.decimal false [1] (.exp 0)) = .ok (.int 1) := by
  refine ⟨fun sg ds e => jsonable_decimal defaultArgs sg ds e rfl, ?_, ?_, ?_, ?_, rfl, rfl⟩
  · intro sg ds n hn
    rw [decimal_encoder, if_pos hn]
  · intro sg ds n hn
    rw [decimal_encoder, if_neg (not_le.mpr hn)]
  · rw [jsonable_decimal defaultArgs false [1, 0] (.exp (-1)) rfl]
    rw [decimal_encoder, if_neg (by norm_num)]
    have : decimalRat false [1, 0] (-1) = 1 := by
      norm_num [decimalRat, digitsToNat]
    rw [this]
  · rw [jsonable_decimal defaultArgs false [1, 5, 0] (.exp (-2)) rfl]
    rw [decimal_encoder, if_neg (by norm_num)]
    have : decimalRat false [1, 5, 0] (-2) = 3 / 2 := by
      norm_num [decimalRat, digitsToNat]
    rw [this]

/-- C2 witness: the exponent dichotomy applied at concrete exponents 2 and -2. -/
theorem c2_amended_witness :
    decimal_encoder false [7] (.exp 2) = .ok (.int (decimalInt false [7] 2))
      ∧ decimal_encoder false [7] (.exp (-2))
        = .ok (.float (.val (decimalRat false [7] (-2)))) :=
  ⟨c2_amended.2.1 false [7] 2 (by decide), c2_amended.2.2.1 false [7] (-2) (by decide)⟩

/-- C3: for every dict input (not captured by a custom encoder), the key set of
the returned mapping equals the encoded images of the input keys filtered exactly
as the claim describes (`include` intersection, `exclude` subtraction, the
`"_sa"`-string filter under `sqlalchemy_safe`, the null-valued-key filter under
`exclude_none`), with keys encoded under the child argument set; and the two
concrete examples of the claim hold:
`encode({"a": None, "b": 1}, exclude_none=True) = {"b": 1}` and
`encode(["x", {"_sa_instance_state": 1, "y": 2}]) = ["x", {"y": 2}]`. -/
theorem c3 :
    (∀ (a : EncArgs) (es : List (PyVal × PyVal)) (res : PyVal),
        applyCustom a.custom_encoder (.dict es) = Option.none →
        jsonable_encoder a (.dict es) = .ok res →
        ∃ out, res = .dict out ∧
          ∀ x, x ∈ out.map Prod.fst ↔
            ∃ p, p ∈ es ∧ ClaimedKeep a p.1 p.2
              ∧ jsonable_encoder (dictChildArgs a) p.1 = .ok x)
    ∧ jsonable_encoder { defaultArgs with exclude_none := true }
        (.dict [(.str "a", .none), (.str "b", .int 1)])
        = .ok (.dict [(.str "b", .int 1)])
    ∧ jsonable_encoder defaultArgs
        (.seq .list [.str "x", .dict [(.str "_sa_instance_state", .int 1), (.str "y", .int 2)]])
        = .ok (.seq .list [.str "x", .dict [(.str "y", .int 2)]]) := by
  refine ⟨?_, rfl, rfl⟩
  intro a es res hcust hret
  rw [jsonable_dict a es hcust] at hret
  cases hee : encodeEntries (keepEntry a) (jsonable_encoder (dictChildArgs a)) [] es with
  | error e =>
    rw [hee] at hret
    exact Except.noConfusion hret
  | ok out =>
    rw [hee] at hret
    injection hret with hres
    refine ⟨out, hres.symm, ?_⟩
    intro x
    rw [encodeEntries_keys es [] out hee x]
    simp only [List.map_nil, List.not_mem_nil, false_or]
    constructor
    · rintro ⟨p, hp, hk, he⟩
      exact ⟨p, hp, (keepEntry_iff a p.1 p.2).mp hk, he⟩
    · rintro ⟨p, hp, hk, he⟩
      exact ⟨p, hp, (keepEntry_iff a p.1 p.2).mpr hk, he⟩

/-- C3 witness: the key-set characterisation applied to the claim's
`exclude_none` example. -/
theorem c3_witness :
    ∃ out, PyVal.dict [(.str "b", .int 1)] = .dict out ∧
      ∀ x, x ∈ out.map Prod.fst ↔
        ∃ p, p ∈ [((PyVal.str "a" : PyVal), (PyVal.none : PyVal)), (.str "b", .int 1)]
          ∧ ClaimedKeep { defaultArgs with exclude_none := true } p.1 p.2
          ∧ jsonable_encoder (dictChildArgs { defaultArgs with exclude_none := true }) p.1
              = .ok x :=
  c3.1 { defaultArgs with exclude_none := true }
    [(.str "a", .none), (.str "b", .int 1)] (.dict [(.str "b", .int 1)]) rfl rfl

/-- C4 (counterexample): `encode(encode(x)) = encode(x)` fails for the encodable
input `x = E.member` where the enum member's value is `b"hi"`: `encode(x)` returns
the raw bytes, but encoding those bytes again yields the decoded string "hi". -/
theorem c4_counterexample :
    jsonable_encoder defaultArgs (.enum "E" (.bytes [104, 105])) = .ok (.bytes [104, 105])
      ∧ jsonable_encoder defaultArgs (.bytes [104, 105]) = .ok (.str "hi")
      ∧ (jsonable_encoder defaultArgs (.enum "E" (.bytes [104, 105]))).bind
            (jsonable_encoder defaultArgs)
          ≠ jsonable_encoder defaultArgs (.enum "E" (.bytes [104, 105])) :=
  ⟨rfl, rfl, by decide⟩

/-- C4 (amended): with default options, the encoder is the identity on every
already-encoded value (primitives, lists of such values, dicts with distinct
non-`"_sa"` string keys and such values); consequently `encode(encode(x)) =
encode(x)` holds whenever `encode(x)` is itself such an already-encoded value —
but not for every encodable `x` (see the counterexample). -/
theorem c4_amended :
    (∀ v : PyVal, isEncoded v = true → jsonable_encoder defaultArgs v = .ok v)
    ∧ (∀ (x r : PyVal), jsonable_encoder defaultArgs x = .ok r → isEncoded r = true →
        (jsonable_encoder defaultArgs x).bind (jsonable_encoder defaultArgs)
          = jsonable_encoder defaultArgs x) := by
  refine ⟨encoded_id, ?_⟩
  intro x r hx hr
  rw [hx]
  show jsonable_encoder defaultArgs r = Except.ok r
  exact encoded_id r hr

/-- C4 witness: identity on a concrete already-encoded value. -/
theorem c4_amended_witness :
    jsonable_encoder defaultArgs (.dict [(.str "k", .seq .list [.int 1, .none])])
      = .ok (.dict [(.str "k", .seq .list [.int 1, .none])]) :=
  c4_amended.1 (.dict [(.str "k", .seq .list [.int 1, .none])]) rfl

/-- C5: an exact-type `custom_encoder` entry overrides every built-in rule and its
result is returned verbatim; with no exact-type entry, the entries are scanned in
insertion order and the first entry whose type the value is an instance of is
applied and returned verbatim. -/
theorem c5 :
    (∀ (a : EncArgs) (obj : PyVal) (t : PyType) (f : PyVal → PyVal),
        a.custom_encoder.find? (fun p => p.1 == typeOf obj) = some (t, f) →
        jsonable_encoder a obj = .ok (f obj))
    ∧ (∀ (a : EncArgs) (obj : PyVal) (t : PyType) (f : PyVal → PyVal),
        a.custom_encoder.find? (fun p => p.1 == typeOf obj) = Option.none →
        a.custom_encoder.find? (fun p => isinst obj p.1) = some (t, f) →
        jsonable_encoder a obj = .ok (f obj)) := by
  constructor
  · intro a obj t f hf
    apply jsonable_custom
    rw [applyCustom, if_neg, hf]
    intro hemp
    rw [List.isEmpty_iff.mp hemp] at hf
    exact Option.noConfusion hf
  · intro a obj t f hex hinst
    apply jsonable_custom
    rw [applyCustom, if_neg, hex, hinst]
    · rfl
    · intro hemp
      rw [List.isEmpty_iff.mp hemp] at hinst
      exact Option.noConfusion hinst

/-- C5 witness: an exact-type override for `bytes` (a type with a built-in leaf
conversion) beats the built-in decode; an `Enum`-base entry catches a member of a
concrete enum class by the isinstance scan. -/
theorem c5_witness :
    jsonable_encoder { defaultArgs with custom_encoder := [(.bytesT, fun _ => .str "custom")] }
        (.bytes [104]) = .ok (.str "custom")
      ∧ jsonable_encoder { defaultArgs with custom_encoder := [(.enumT, fun _ => .int 7)] }
          (.enum "Color" (.str "red")) = .ok (.int 7) :=
  ⟨c5.1 { defaultArgs with custom_encoder := [(.bytesT, fun _ => .str "custom")] }
      (.bytes [104]) .bytesT _ rfl,
    c5.2 { defaultArgs with custom_encoder := [(.enumT, fun _ => .int 7)] }
      (.enum "Color" (.str "red")) .enumT _ rfl rfl⟩

/-- C6: on the iterable family every element is encoded with the UNCHANGED full
argument set (`include`, `exclude`, `exclude_defaults` included), in input order;
on a dict, keys and values are encoded with the child argument set in which
`include`, `exclude` and `exclude_defaults` are reset to their defaults while
`by_alias`, `exclude_unset`, `exclude_none`, `custom_encoder` and
`sqlalchemy_safe` are forwarded, and `include`/`exclude` only filter this level's
keys. -/
theorem c6 :
    (∀ (a : EncArgs) (sk : SeqKind) (xs : List PyVal),
        applyCustom a.custom_encoder (.seq sk xs) = Option.none →
        jsonable_encoder a (.seq sk xs)
          = (encodeSeq (jsonable_encoder a) xs).map (PyVal.seq .list))
    ∧ (∀ (a : EncArgs) (es : List (PyVal × PyVal)),
        applyCustom a.custom_encoder (.dict es) = Option.none →
        jsonable_encoder a (.dict es)
          = (encodeEntries (keepEntry a)
              (jsonable_encoder
                { include' := Option.none
                  exclude := Option.none
                  by_alias := a.by_alias
                  exclude_unset := a.exclude_unset
                  exclude_defaults := false
                  exclude_none := a.exclude_none
                  custom_encoder := a.custom_encoder
                  sqlalchemy_safe := a.sqlalchemy_safe }) [] es).map PyVal.dict) :=
  ⟨jsonable_seq, fun a es h => jsonable_dict a es h⟩

/-- C6 witness: both equations applied at concrete inputs with non-default
`exclude` and `exclude_defaults` arguments. -/
theorem c6_witness :
    jsonable_encoder { defaultArgs with exclude := some [.str "x"], exclude_defaults := true }
        (.seq .tuple [.dict [(.str "x", .int 1)]])
      = (encodeSeq
          (jsonable_encoder
            { defaultArgs with exclude := some [.str "x"], exclude_defaults := true })
          [.dict [(.str "x", .int 1)]]).map (PyVal.seq .list)
    ∧ jsonable_encoder { defaultArgs with exclude := some [.str "x"], exclude_defaults := true }
        (.dict [(.str "x", .int 1), (.str "y", .int 2)])
      = (encodeEntries
          (keepEntry { defaultArgs with exclude := some [.str "x"], exclude_defaults := true })
          (jsonable_encoder
            { include' := Option.none
              exclude := Option.none
              by_alias := true
              exclude_unset := false
              exclude_defaults := false
              exclude_none := false
              custom_encoder := []
              sqlalchemy_safe := true }) []
          [(.str "x", .int 1), (.str "y", .int 2)]).map PyVal.dict :=
  ⟨c6.1 { defaultArgs with exclude := some [.str "x"], exclude_defaults := true } .tuple
      [.dict [(.str "x", .int 1)]] rfl,
    c6.2 { defaultArgs with exclude := some [.str "x"], exclude_defaults := true }
      [(.str "x", .int 1), (.str "y", .int 2)] rfl⟩

/-- C7: for a value reaching the fallback, if `dict(obj)` succeeds the encoder
recurses into the resulting mapping with the full option set; failing that, if
`vars(obj)` succeeds it recurses into the attribute dict with the full option set;
if both fail it raises `ValueError` carrying the list of both underlying failures
(the `dict` failure first). -/
theorem c7 :
    (∀ (a : EncArgs) (c : String) (prs : List (PyVal × PyVal))
        (vOpt : Option (List (String × PyVal))),
        applyCustom a.custom_encoder (.obj c (some prs) vOpt) = Option.none →
        jsonable_encoder a (.obj c (some prs) vOpt) = jsonable_encoder a (.dict prs))
    ∧ (∀ (a : EncArgs) (c : String) (vs : List (String × PyVal)),
        applyCustom a.custom_encoder (.obj c Option.none (some vs)) = Option.none →
        jsonable_encoder a (.obj c Option.none (some vs))
          = jsonable_encoder a (.dict (mapVars vs)))
    ∧ (∀ (a : EncArgs) (c : String),
        applyCustom a.custom_encoder (.obj c Option.none Option.none) = Option.none →
        jsonable_encoder a (.obj c Option.none Option.none)
          = .error (.valueError [.typeErrorNotIterable c, .typeErrorNoDict c])) :=
  ⟨jsonable_objDict, jsonable_objVars, jsonable_objFail⟩

/-- C7 witness: the three fallback outcomes at concrete objects. -/
theorem c7_witness :
    jsonable_encoder defaultArgs (.obj "Row" (some [(.str "x", .int 1)]) Option.none)
        = jsonable_encoder defaultArgs (.dict [(.str "x", .int 1)])
      ∧ jsonable_encoder defaultArgs (.obj "Pt" Option.none (some [("y", .int 2)]))
          = jsonable_encoder defaultArgs (.dict (mapVars [("y", .int 2)]))
      ∧ jsonable_encoder defaultArgs (.obj "Opaque" Option.none Option.none)
          = .error (.valueError [.typeErrorNotIterable "Opaque", .typeErrorNoDict "Opaque"]) :=
  ⟨c7.1 defaultArgs "Row" [(.str "x", .int 1)] Option.none rfl,
    c7.2.1 defaultArgs "Pt" [("y", .int 2)] rfl,
    c7.2.2 defaultArgs "Opaque" rfl⟩

/-- C8: a Pydantic v1 model instance reaching the fallback stage makes the encoder
raise the dedicated `PydanticV1NotSupportedError` (with the source's message,
including the instance's repr); it never returns a serialized form. -/
theorem c8 (a : EncArgs) (c rp : String)
    (h : applyCustom a.custom_encoder (.pv1Model c rp) = Option.none) :
    jsonable_encoder a (.pv1Model c rp)
      = .error (.pv1NotSupported
          ("pydantic.v1 models are no longer supported by FastAPI."
            ++ " Please update the model " ++ rp ++ ".")) := by
  rw [jsonable_pv1 a c rp h]
  rfl

/-- C8 witness: the rejection at a concrete model instance. -/
theorem c8_witness :
    jsonable_encoder defaultArgs (.pv1Model "Item" "Item()")
      = .error (.pv1NotSupported
          "pydantic.v1 models are no longer supported by FastAPI. Please update the model Item().") :=
  c8 defaultArgs "Item" "Item()" rfl

/-- C9: a bytes value that no custom encoder captures is handled by the exact-type
conversion table: when its text decoding succeeds the encoder returns the decoded
string (not a sequence of integers). -/
theorem c9 (a : EncArgs) (bs : List Nat) (s : String)
    (hc : applyCustom a.custom_encoder (.bytes bs) = Option.none)
    (hd : bytesDecode bs = some s) :
    jsonable_encoder a (.bytes bs) = .ok (.str s) := by
  rw [jsonable_bytes a bs hc]
  show (match bytesDecode bs with
    | some s => Except.ok (PyVal.str s)
    | Option.none => Except.error EncErr.unicodeDecodeError) = .ok (.str s)
  rw [hd]

/-- C9 witness: `b"hi"` decodes and encodes to the string "hi". -/
theorem c9_witness : jsonable_encoder defaultArgs (.bytes [104, 105]) = .ok (.str "hi") :=
  c9 defaultArgs [104, 105] "hi" rfl rfl

/-- C10: `oauth_scopes` equals `parent_oauth_scopes` (verbatim, in order, `None`
treated as empty) followed by exactly those elements of `own_oauth_scopes` not
already present in the accumulated list, in first-occurrence order; the appended
part has no duplicates and is disjoint from the parent part, so no own scope is
appended more than once and the parent scopes' relative order is preserved. -/
theorem c10 (d : Dependant) :
    d.oauth_scopes
        = (d.parent_oauth_scopes.getD []) ++
            newScopes (d.parent_oauth_scopes.getD []) (d.own_oauth_scopes.getD [])
      ∧ (newScopes (d.parent_oauth_scopes.getD []) (d.own_oauth_scopes.getD [])).Nodup
      ∧ ∀ x ∈ newScopes (d.parent_oauth_scopes.getD []) (d.own_oauth_scopes.getD []),
          x ∉ d.parent_oauth_scopes.getD [] := by
  refine ⟨?_, (newScopes_nodup _ _).1, (newScopes_nodup _ _).2⟩
  have hstart : (match d.parent_oauth_scopes with
      | some l => if l.isEmpty then [] else l
      | Option.none => []) = d.parent_oauth_scopes.getD [] := by
    cases hp : d.parent_oauth_scopes with
    | none => rfl
    | some l => cases l <;> rfl
  rw [Dependant.oauth_scopes]
  rw [hstart, oauth_fold]

/-- C10 witness: the characterisation at a concrete dependant with overlapping and
duplicated scopes. -/
theorem c10_witness :
    Dependant.oauth_scopes
        { own_oauth_scopes := some ["read", "admin", "read"],
          parent_oauth_scopes := some ["admin", "write"] }
      = ["admin", "write"] ++ newScopes ["admin", "write"] ["read", "admin", "read"] :=
  (c10 { own_oauth_scopes := some ["read", "admin", "read"],
         parent_oauth_scopes := some ["admin", "write"] }).1
